import Mathlib

/-!
Ledger: revert engine and facade of the sparse Merkle tree ledger

Shallow embedding of `src/ledger/smt_revert.go`, `src/ledger/ledger.go` and
`src/config/labels/collection.go`.

* Go byte slices are lists of byte values; `bytes.Equal` is equality of
  contents and `len(x) == 0` holds for the nil and the empty slice alike, so
  both are the empty list.
* A Go `error` is `Option String`: `none` is `nil`.
* `height` and `iBatch` are Go `int`s that the tree engine keeps
  non-negative (a trie height, a heap position inside a batch), so they are
  natural numbers here.  `deleteSubTreeFuel` and `maybeDeleteSubTreeFuel` take
  the height as an integer and bound the depth of the recursion; for heights
  `≥ 0` they are shown to agree with the functions over natural numbers.
* `s.db.nodesToRevert` is mutable state shared through the receiver; it is
  passed explicitly as a `CacheDB`.
* The two goroutines started for the children of an internal split are run
  one after the other, left child first.  Both are always awaited in the
  source, so both always run here too.  `deleteSubTreeRuns` and
  `maybeDeleteSubTreeRuns` give the outcomes of all schedules of the
  goroutines instead.
* `src/config/labels/collection.go` is embedded in the namespace `Labels`.
* The tree engine (`loadChildren`, `Update`, `GetPreviousValue`, `Root`,
  `DefaultLeaf`) is not among the source files; the embedded functions take
  what they use of it as a parameter.
-/

namespace Ledger

/-- Contents of a Go byte slice. -/
abbrev Bytes := List Nat

/-- A batch of node slots, `[][]byte` in the source. -/
abbrev Batch := List Bytes

/-- A Go error value: `none` is `nil`. -/
abbrev GoError := Option String

/-- The five non-error results of `loadChildren`, in the order the source
binds them: `batch, iBatch, lnode, rnode, isShortcut`. -/
structure Children where
  batch : Batch
  iBatch : Nat
  lnode : Bytes
  rnode : Bytes
  isShortcut : Bool
deriving DecidableEq, Repr

/-- The method `SMT.loadChildren(root, height, iBatch, batch)`.  Its body is
part of the tree engine, which is not among the embedded sources, so the
revert engine takes it as a parameter: either the error it returns or the
five other results. -/
abbrev Loader := Bytes → Nat → Nat → Batch → Except String Children

/-- The part of `s.db` that the revert engine touches.  `nodesToRevert` is the
field of the source.  `loaded` is bookkeeping added by the embedding: the node
argument of every `loadChildren` call made so far, in call order. -/
structure CacheDB where
  nodesToRevert : List Bytes
  loaded : List Bytes
deriving DecidableEq, Repr

/-- Bookkeeping for one call of `loadChildren` on `node`. -/
def recordLoad (db : CacheDB) (node : Bytes) : CacheDB :=
  { db with loaded := db.loaded ++ [node] }

/-- `maybeDeleteRevertedNode` (smt_revert.go 107-113): the node is appended to
`nodesToRevert` only when `iBatch == 0`. -/
def maybeDeleteRevertedNode (db : CacheDB) (root : Bytes) (iBatch : Nat) : CacheDB :=
  if iBatch = 0 then { db with nodesToRevert := db.nodesToRevert ++ [root] } else db

/-- `deleteSubTree` (smt_revert.go 76-104).  The second component of the
result is the value sent on `ch`. -/
def deleteSubTree (ld : Loader) (root : Bytes) (height iBatch : Nat) (batch : Batch)
    (db : CacheDB) : CacheDB × GoError :=
  match height with
  | 0 => (db, none)
  | h + 1 =>
    if root.length = 0 then (db, none)
    else
      match ld root (h + 1) iBatch batch with
      | .error err => (recordLoad db root, some err)
      | .ok c =>
        let db0 := recordLoad db root
        if !c.isShortcut then
          let r1 := deleteSubTree ld c.lnode h (2 * c.iBatch + 1) c.batch db0
          let r2 := deleteSubTree ld c.rnode h (2 * c.iBatch + 2) c.batch r1.1
          match r1.2, r2.2 with
          | some lerr, _ => (r2.1, some lerr)
          | none, some rerr => (r2.1, some rerr)
          | none, none => (maybeDeleteRevertedNode r2.1 root c.iBatch, none)
        else (maybeDeleteRevertedNode db0 root c.iBatch, none)

/-- `maybeDeleteSubTree` (smt_revert.go 13-73).  The second component of the
result is the value sent on `ch`. -/
def maybeDeleteSubTree (ld : Loader) (original maybeDelete : Bytes) (height iBatch : Nat)
    (batch batch2 : Batch) (db : CacheDB) : CacheDB × GoError :=
  if original = maybeDelete ∨ maybeDelete.length = 0 then (db, none)
  else
    match height with
    | 0 => (db, none)
    | h + 1 =>
      match ld original (h + 1) iBatch batch with
      | .error lerr => (recordLoad db original, some lerr)
      | .ok c =>
        let db0 := recordLoad db original
        match ld maybeDelete (h + 1) c.iBatch batch2 with
        | .error rerr => (recordLoad db0 maybeDelete, some rerr)
        | .ok c2 =>
          let db1 := recordLoad db0 maybeDelete
          if c.isShortcut ≠ c2.isShortcut then
            if c.isShortcut then
              let r := deleteSubTree ld maybeDelete (h + 1) c.iBatch c2.batch db1
              match r.2 with
              | some err => (r.1, some err)
              | none => (r.1, none)
            else (maybeDeleteRevertedNode db1 maybeDelete c.iBatch, none)
          else if c.isShortcut then
            if c.lnode ≠ c2.lnode ∨ c.rnode ≠ c2.rnode then
              (maybeDeleteRevertedNode db1 maybeDelete c.iBatch, none)
            else (db1, none)
          else
            let db2 := maybeDeleteRevertedNode db1 maybeDelete c.iBatch
            let r1 := maybeDeleteSubTree ld c.lnode c2.lnode h (2 * c.iBatch + 1)
              c.batch c2.batch db2
            let r2 := maybeDeleteSubTree ld c.rnode c2.rnode h (2 * c.iBatch + 2)
              c.batch c2.batch r1.1
            match r1.2, r2.2 with
            | some err1, _ => (r2.1, some err1)
            | none, some err2 => (r2.1, some err2)
            | none, none => (r2.1, none)

/-- The nodes reachable from `root`, each with its batch index: `root` itself
when it is not empty and, when it loads as an internal split, the nodes
reachable from its two children one level down.  The index of a node is the
one `loadChildren` returns for it; a node that is not loaded (height 0, or a
failing load) keeps the index it was reached with.  This follows the words
of the specification, not the control flow of the revert engine. -/
def reachable (ld : Loader) (root : Bytes) (height iBatch : Nat) (batch : Batch) :
    List (Bytes × Nat) :=
  match height with
  | 0 => if root.length = 0 then [] else [(root, iBatch)]
  | h + 1 =>
    if root.length = 0 then []
    else
      match ld root (h + 1) iBatch batch with
      | .error _ => [(root, iBatch)]
      | .ok c =>
        (root, c.iBatch) ::
          (if c.isShortcut then []
           else reachable ld c.lnode h (2 * c.iBatch + 1) c.batch ++
                reachable ld c.rnode h (2 * c.iBatch + 2) c.batch)

/-- The digests of the batch roots (batch index 0) among `reachable`. -/
def batchRoots (ld : Loader) (root : Bytes) (height iBatch : Nat) (batch : Batch) :
    List Bytes :=
  ((reachable ld root height iBatch batch).filter (fun n => n.2 = 0)).map (fun n => n.1)

/-- Batch index returned by the example store: a new batch starts at every
height divisible by 4, as with batches covering four levels; elsewhere the
index passed in is kept. -/
def exampleIndex (height iBatch : Nat) : Nat :=
  if height % 4 = 0 then 0 else iBatch

/-- Contents of the example store: nodes `[1]`, `[2]`, `[11]` and `[12]` are
internal splits (`[1]` over `[2]`, `[3]`; `[2]` over `[4]`, `[5]`; `[11]` over
`[12]`, `[13]`; `[12]` over `[14]`, `[15]`); the empty node has two empty
children; every other node is a shortcut whose key is the node itself and
whose value is `[0]`. -/
def exampleKids (root : Bytes) : Bytes × Bytes × Bool :=
  if root = [] then ([], [], false)
  else if root = [1] then ([2], [3], false)
  else if root = [2] then ([4], [5], false)
  else if root = [11] then ([12], [13], false)
  else if root = [12] then ([14], [15], false)
  else (root, [0], true)

/-- A small store for examples, in which every load succeeds and hands back
the batch it was given. -/
def exampleLoader : Loader := fun root height iBatch batch =>
  .ok ⟨batch, exampleIndex height iBatch, (exampleKids root).1, (exampleKids root).2.1,
    (exampleKids root).2.2⟩

/-- The empty revert state. -/
def emptyDB : CacheDB := ⟨[], []⟩

/-- The state `db` followed by the appends and loads recorded in `x`. -/
def CacheDB.extend (db x : CacheDB) : CacheDB :=
  ⟨db.nodesToRevert ++ x.nodesToRevert, db.loaded ++ x.loaded⟩

/-- The digests `deleteSubTree` appends when started on the empty state. -/
def deleted (ld : Loader) (root : Bytes) (height iBatch : Nat) (batch : Batch) : List Bytes :=
  (deleteSubTree ld root height iBatch batch emptyDB).1.nodesToRevert

/-- The digests `maybeDeleteSubTree` appends when started on the empty state. -/
def diffed (ld : Loader) (original maybeDelete : Bytes) (height iBatch : Nat)
    (batch batch2 : Batch) : List Bytes :=
  (maybeDeleteSubTree ld original maybeDelete height iBatch batch batch2 emptyDB).1.nodesToRevert

/-- The loader answers as a lookup in a store of trees: every load succeeds,
the children and the shortcut flag it returns are a function `kids` of the
node and the height (the batch passed in is only a cache), the batch index it
returns is a function `idx` of the height and the index passed in, stable
under a second application, and the empty node has empty children. -/
def StoreBacked (ld : Loader) (idx : Nat → Nat → Nat)
    (kids : Bytes → Nat → Bytes × Bytes × Bool) : Prop :=
  (∀ n h i b, ∃ b', ld n h i b =
      .ok ⟨b', idx h i, (kids n h).1, (kids n h).2.1, (kids n h).2.2⟩) ∧
    (∀ h i, idx h (idx h i) = idx h i) ∧
    (∀ h, (kids [] h).1 = [] ∧ (kids [] h).2.1 = [])

/-- Distinct shortcut nodes store distinct (key, value) pairs, as when the
digest of a shortcut is a hash of its pair. -/
def ShortcutsDiffer (kids : Bytes → Nat → Bytes × Bytes × Bool) : Prop :=
  ∀ n m h, (kids n h).2.2 = true → (kids m h).2.2 = true →
    (kids n h).1 = (kids m h).1 → (kids n h).2.1 = (kids m h).2.1 → n = m

/-! ## The ledger facade (ledger.go) -/

/-- A Go string, as the sequence of its characters.  The conversions
`[]byte(x)` and `string(b)` of the facade do not change the content, so the
byte slices it hands to and receives from the tree engine are represented by
the same sequences. -/
abbrev GoString := List Char

/-- The space character used for padding. -/
def spaceChar : Char := Char.ofNat 32

/-- `unicode.IsSpace`, the test `strings.TrimSpace` uses: the code points with
the Unicode White_Space property. -/
def isSpace (c : Char) : Bool :=
  (9 ≤ c.toNat && c.toNat ≤ 13) || c.toNat = 32 || c.toNat = 133 || c.toNat = 160 ||
    c.toNat = 5760 || (8192 ≤ c.toNat && c.toNat ≤ 8202) || c.toNat = 8232 ||
    c.toNat = 8233 || c.toNat = 8239 || c.toNat = 8287 || c.toNat = 12288

/-- `strings.TrimSpace`: all leading and trailing white space removed. -/
def TrimSpace (s : GoString) : GoString :=
  ((s.dropWhile isSpace).reverse.dropWhile isSpace).reverse

/-- `fmt.Sprintf("%8v", s)` for a string `s`: padded with spaces on the left to
a width of 8 characters; a string of 8 or more characters is unchanged. -/
def Sprintf8v (s : GoString) : GoString :=
  List.replicate (8 - s.length) spaceChar ++ s

/-- The tree engine as the facade uses it.  The type `SMT` and its methods are
not among the source files, so the facade takes them as a parameter: `T` is
the state of a tree, `NewSMT` the tree that `Make` creates, `Root` the field
holding the current root digest, `Update` and `GetPreviousValue` the two
methods called (each returning its Go results, `Update` also the tree it
leaves), and `DefaultLeaf` the package constant written on deletion. -/
structure TreeEngine (T : Type) where
  DefaultLeaf : GoString
  NewSMT : T
  Root : T → GoString
  Update : T → List GoString → List GoString → T × GoString × GoError
  GetPreviousValue : T → GoString → GoString → GoString × GoError

/-- The type `SMTLedger` (ledger.go 31-33). -/
structure SMTLedger (T : Type) where
  tree : T

/-- `Make` (ledger.go 36-38): a ledger over a new tree. -/
def Make {T : Type} (E : TreeEngine T) : SMTLedger T :=
  ⟨E.NewSMT⟩

/-- `SMTLedger.Put` (ledger.go 42-47): key and value are both padded. -/
def SMTLedger.Put {T : Type} (E : TreeEngine T) (s : SMTLedger T) (key value : GoString) :
    SMTLedger T × GoString × GoError :=
  let r := E.Update s.tree [Sprintf8v key] [Sprintf8v value]
  (⟨r.1⟩, r.2.1, r.2.2)

/-- `SMTLedger.Delete` (ledger.go 50-53): the key is passed as it is. -/
def SMTLedger.Delete {T : Type} (E : TreeEngine T) (s : SMTLedger T) (key : GoString) :
    SMTLedger T × GoError :=
  let r := E.Update s.tree [key] [E.DefaultLeaf]
  (⟨r.1⟩, r.2.2)

/-- `SMTLedger.RootHash` (ledger.go 68-70). -/
def SMTLedger.RootHash {T : Type} (E : TreeEngine T) (s : SMTLedger T) : GoString :=
  E.Root s.tree

/-- `SMTLedger.GetPreviousValue` (ledger.go 56-60): the key is padded and the
value read is trimmed. -/
def SMTLedger.GetPreviousValue {T : Type} (E : TreeEngine T) (s : SMTLedger T)
    (previousHash key : GoString) : GoString × GoError :=
  let r := E.GetPreviousValue s.tree previousHash (Sprintf8v key)
  (TrimSpace r.1, r.2)

/-- `SMTLedger.Get` (ledger.go 63-65). -/
def SMTLedger.Get {T : Type} (E : TreeEngine T) (s : SMTLedger T) (key : GoString) :
    GoString × GoError :=
  s.GetPreviousValue E (s.RootHash E) key

/-- The engine is a store in which `GetPreviousValue` at the current root
returns the bytes last written by `Update` for that key, with a nil error. -/
def ReadsLastWrite {T : Type} (E : TreeEngine T) : Prop :=
  ∀ (t : T) (k v : GoString),
    E.GetPreviousValue (E.Update t [k] [v]).1 (E.Root (E.Update t [k] [v]).1) k = (v, none)

/-- State of a store engine for examples: the (key, value) pairs written,
newest first, and the earlier roots with the pairs they stood for. -/
structure Store where
  pairs : List (GoString × GoString)
  history : List (GoString × List (GoString × GoString))

/-- Root digest of the example store: the number of pairs written. -/
def Store.root (t : Store) : GoString :=
  [Char.ofNat t.pairs.length]

/-- A store engine for examples.  `Update` records the pairs and keeps the
earlier root; `GetPreviousValue` looks the root up among the current and the
earlier ones and returns the value last written for the key under it, the
single zero byte `DefaultLeaf` when there is none, and fails for an unknown
root. -/
def storeEngine : TreeEngine Store where
  DefaultLeaf := [Char.ofNat 0]
  NewSMT := ⟨[], []⟩
  Root := Store.root
  Update := fun t keys values =>
    let t1 : Store := ⟨(keys.zip values).reverse ++ t.pairs, (t.root, t.pairs) :: t.history⟩
    (t1, t1.root, none)
  GetPreviousValue := fun t root key =>
    match ((t.root, t.pairs) :: t.history).find? (fun e => e.1 = root) with
    | none => ([], some "unknown root")
    | some e =>
      match e.2.find? (fun kv => kv.1 = key) with
      | none => ([Char.ofNat 0], none)
      | some kv => (kv.2, none)

/-- A new ledger over the example store. -/
def exampleLedger : SMTLedger Store :=
  Make storeEngine

/-- The error two children report together: the left child's when it has one,
otherwise the right child's. -/
def firstError (lerr rerr : GoError) : GoError :=
  match lerr with
  | some e => some e
  | none => rerr

/-- The example store with a fault: loading node `[2]` fails. -/
def faultyLoader : Loader := fun root height iBatch batch =>
  if root = [2] then .error "store read failed" else exampleLoader root height iBatch batch

/-- The error `deleteSubTree` reports (it does not depend on the state the call
starts from). -/
def deleteErr (ld : Loader) (root : Bytes) (height iBatch : Nat) (batch : Batch) : GoError :=
  (deleteSubTree ld root height iBatch batch emptyDB).2

/-- The error `maybeDeleteSubTree` reports (it does not depend on the state
the call starts from). -/
def diffErr (ld : Loader) (original maybeDelete : Bytes) (height iBatch : Nat)
    (batch batch2 : Batch) : GoError :=
  (maybeDeleteSubTree ld original maybeDelete height iBatch batch batch2 emptyDB).2

/-- The levels of the recursion of `deleteSubTree(root, height, iBatch,
batch)`: every node that this call or one of its recursive calls loads
successfully, with the batch index `loadChildren` returns for it there, the
nodes below an internal split before the split itself. -/
def deleteLevels (ld : Loader) (root : Bytes) (height iBatch : Nat) (batch : Batch) :
    List (Bytes × Nat) :=
  match height with
  | 0 => []
  | h + 1 =>
    if root.length = 0 then []
    else
      match ld root (h + 1) iBatch batch with
      | .error _ => []
      | .ok c =>
        (if c.isShortcut then []
         else deleteLevels ld c.lnode h (2 * c.iBatch + 1) c.batch ++
              deleteLevels ld c.rnode h (2 * c.iBatch + 2) c.batch) ++ [(root, c.iBatch)]

/-- The levels of the recursion of `maybeDeleteSubTree(original, maybeDelete,
height, iBatch, batch, batch2)`: for every level that this call or one of its
recursive calls reaches with both loads succeeding, the node `maybeDelete` of
that level with the batch index of the level, which is the index
`loadChildren` returned for `original` there (the index it returned for
`maybeDelete` is the one the source discards); where the diff hands over to
`deleteSubTree`, the levels of that call instead. -/
def diffLevels (ld : Loader) (original maybeDelete : Bytes) (height iBatch : Nat)
    (batch batch2 : Batch) : List (Bytes × Nat) :=
  if original = maybeDelete ∨ maybeDelete.length = 0 then []
  else
    match height with
    | 0 => []
    | h + 1 =>
      match ld original (h + 1) iBatch batch with
      | .error _ => []
      | .ok c =>
        match ld maybeDelete (h + 1) c.iBatch batch2 with
        | .error _ => []
        | .ok c2 =>
          if c.isShortcut ≠ c2.isShortcut then
            if c.isShortcut then deleteLevels ld maybeDelete (h + 1) c.iBatch c2.batch
            else [(maybeDelete, c.iBatch)]
          else if c.isShortcut then [(maybeDelete, c.iBatch)]
          else
            (maybeDelete, c.iBatch) ::
              (diffLevels ld c.lnode c2.lnode h (2 * c.iBatch + 1) c.batch c2.batch ++
                diffLevels ld c.rnode c2.rnode h (2 * c.iBatch + 2) c.batch c2.batch)

/-- The digests of the levels whose batch index is 0. -/
def atIndexZero (levels : List (Bytes × Nat)) : List Bytes :=
  (levels.filter (fun n => n.2 = 0)).map (fun n => n.1)

/-- A store in which the index returned for node `[13]` is always 5, while
every other node loads with index 0; all nodes are shortcuts whose key is the
node itself. -/
def skewLoader : Loader := fun root _ _ batch =>
  if root = [13] then .ok ⟨batch, 5, [13], [0], true⟩ else .ok ⟨batch, 0, root, [0], true⟩

/-! ## Recursion with the height as a Go `int` -/

/-- `loadChildren` with the height as the Go `int` it is. -/
abbrev LoaderZ := Bytes → Int → Nat → Batch → Except String Children

/-- `deleteSubTree` (smt_revert.go 76-104) with the height as an integer, as in
the source, and a bound `fuel` on the depth of the recursion: each of the two
recursive calls is made with `height - 1` and one unit of fuel less, and the
result is `none` when a recursive call would be needed with no fuel left. -/
def deleteSubTreeFuel (ld : LoaderZ) (fuel : Nat) (root : Bytes) (height : Int) (iBatch : Nat)
    (batch : Batch) (db : CacheDB) : Option (CacheDB × GoError) :=
  if height = 0 ∨ root.length = 0 then some (db, none)
  else
    match ld root height iBatch batch with
    | .error err => some (recordLoad db root, some err)
    | .ok c =>
      let db0 := recordLoad db root
      if !c.isShortcut then
        match fuel with
        | 0 => none
        | f + 1 =>
          match deleteSubTreeFuel ld f c.lnode (height - 1) (2 * c.iBatch + 1) c.batch db0 with
          | none => none
          | some r1 =>
            match deleteSubTreeFuel ld f c.rnode (height - 1) (2 * c.iBatch + 2) c.batch
                r1.1 with
            | none => none
            | some r2 =>
              match r1.2, r2.2 with
              | some lerr, _ => some (r2.1, some lerr)
              | none, some rerr => some (r2.1, some rerr)
              | none, none => some (maybeDeleteRevertedNode r2.1 root c.iBatch, none)
      else some (maybeDeleteRevertedNode db0 root c.iBatch, none)

/-- `maybeDeleteSubTree` (smt_revert.go 13-73) with the height as an integer
and a bound `fuel` on the depth of the recursion.  The call of `deleteSubTree`
in the mixed case is made at the same height and is not a recursive call, so
it gets the same fuel. -/
def maybeDeleteSubTreeFuel (ld : LoaderZ) (fuel : Nat) (original maybeDelete : Bytes)
    (height : Int) (iBatch : Nat) (batch batch2 : Batch) (db : CacheDB) :
    Option (CacheDB × GoError) :=
  if original = maybeDelete ∨ maybeDelete.length = 0 then some (db, none)
  else if height = 0 then some (db, none)
  else
    match ld original height iBatch batch with
    | .error lerr => some (recordLoad db original, some lerr)
    | .ok c =>
      let db0 := recordLoad db original
      match ld maybeDelete height c.iBatch batch2 with
      | .error rerr => some (recordLoad db0 maybeDelete, some rerr)
      | .ok c2 =>
        let db1 := recordLoad db0 maybeDelete
        if c.isShortcut ≠ c2.isShortcut then
          if c.isShortcut then
            match deleteSubTreeFuel ld fuel maybeDelete height c.iBatch c2.batch db1 with
            | none => none
            | some r =>
              match r.2 with
              | some err => some (r.1, some err)
              | none => some (r.1, none)
          else some (maybeDeleteRevertedNode db1 maybeDelete c.iBatch, none)
        else if c.isShortcut then
          if c.lnode ≠ c2.lnode ∨ c.rnode ≠ c2.rnode then
            some (maybeDeleteRevertedNode db1 maybeDelete c.iBatch, none)
          else some (db1, none)
        else
          let db2 := maybeDeleteRevertedNode db1 maybeDelete c.iBatch
          match fuel with
          | 0 => none
          | f + 1 =>
            match maybeDeleteSubTreeFuel ld f c.lnode c2.lnode (height - 1) (2 * c.iBatch + 1)
                c.batch c2.batch db2 with
            | none => none
            | some r1 =>
              match maybeDeleteSubTreeFuel ld f c.rnode c2.rnode (height - 1)
                  (2 * c.iBatch + 2) c.batch c2.batch r1.1 with
              | none => none
              | some r2 =>
                match r1.2, r2.2 with
                | some err1, _ => some (r2.1, some err1)
                | none, some err2 => some (r2.1, some err2)
                | none, none => some (r2.1, none)

/-- The loader seen at natural-number heights. -/
def LoaderZ.toLoader (ld : LoaderZ) : Loader :=
  fun root height iBatch batch => ld root (Int.ofNat height) iBatch batch

/-- The example store as a loader over integer heights. -/
def exampleLoaderZ : LoaderZ := fun root height iBatch batch =>
  exampleLoader root height.toNat iBatch batch

/-! ## Concurrent execution of the children -/

/-- The interleavings of `x :: xs` with a second sequence, given the function
`rest` that interleaves `xs` with any sequence. -/
def interleaveWith (x : Bytes) (xs : List Bytes) (rest : List Bytes → List (List Bytes)) :
    List Bytes → List (List Bytes)
  | [] => [x :: xs]
  | y :: ys =>
    (rest (y :: ys)).map (fun l => x :: l) ++
      (interleaveWith x xs rest ys).map (fun l => y :: l)

/-- All interleavings of two sequences.  The appends of two goroutines reach
the mutex-guarded slice `nodesToRevert` one at a time, each goroutine's own
appends in their order, so the slice gains one of the interleavings of the two
sequences. -/
def interleavings : List Bytes → List Bytes → List (List Bytes)
  | [] => fun ys => [ys]
  | x :: xs => interleaveWith x xs (interleavings xs)

/-- The digests one call of `maybeDeleteRevertedNode(root, iBatch)` appends. -/
def revertedNode (root : Bytes) (iBatch : Nat) : List Bytes :=
  if iBatch = 0 then [root] else []

/-- The interleavings of a sequence of the left child with a sequence of the
right child, over all sequences the two children can produce. -/
def joined (left right : List (List Bytes)) : List (List Bytes) :=
  left.flatMap (fun xs => right.flatMap (fun ys => interleavings xs ys))

/-- `deleteSubTree` (smt_revert.go 76-104) with its two goroutines running
concurrently: the sequences of digests the call can append to the revert set,
one for each schedule, and the value sent on `ch`.  The root is appended after
both children were awaited. -/
def deleteSubTreeRuns (ld : Loader) (root : Bytes) (height iBatch : Nat) (batch : Batch) :
    List (List Bytes) × GoError :=
  match height with
  | 0 => ([[]], none)
  | h + 1 =>
    if root.length = 0 then ([[]], none)
    else
      match ld root (h + 1) iBatch batch with
      | .error err => ([[]], some err)
      | .ok c =>
        if !c.isShortcut then
          let r1 := deleteSubTreeRuns ld c.lnode h (2 * c.iBatch + 1) c.batch
          let r2 := deleteSubTreeRuns ld c.rnode h (2 * c.iBatch + 2) c.batch
          match r1.2, r2.2 with
          | some lerr, _ => (joined r1.1 r2.1, some lerr)
          | none, some rerr => (joined r1.1 r2.1, some rerr)
          | none, none =>
            ((joined r1.1 r2.1).map (fun l => l ++ revertedNode root c.iBatch), none)
        else ([revertedNode root c.iBatch], none)

/-- `maybeDeleteSubTree` (smt_revert.go 13-73) with its two goroutines running
concurrently: the sequences of digests the call can append to the revert set,
one for each schedule, and the value sent on `ch`.  `maybeDelete` is appended
before the goroutines are started. -/
def maybeDeleteSubTreeRuns (ld : Loader) (original maybeDelete : Bytes) (height iBatch : Nat)
    (batch batch2 : Batch) : List (List Bytes) × GoError :=
  if original = maybeDelete ∨ maybeDelete.length = 0 then ([[]], none)
  else
    match height with
    | 0 => ([[]], none)
    | h + 1 =>
      match ld original (h + 1) iBatch batch with
      | .error lerr => ([[]], some lerr)
      | .ok c =>
        match ld maybeDelete (h + 1) c.iBatch batch2 with
        | .error rerr => ([[]], some rerr)
        | .ok c2 =>
          if c.isShortcut ≠ c2.isShortcut then
            if c.isShortcut then
              let r := deleteSubTreeRuns ld maybeDelete (h + 1) c.iBatch c2.batch
              match r.2 with
              | some err => (r.1, some err)
              | none => (r.1, none)
            else ([revertedNode maybeDelete c.iBatch], none)
          else if c.isShortcut then
            if c.lnode ≠ c2.lnode ∨ c.rnode ≠ c2.rnode then
              ([revertedNode maybeDelete c.iBatch], none)
            else ([[]], none)
          else
            let r1 := maybeDeleteSubTreeRuns ld c.lnode c2.lnode h (2 * c.iBatch + 1)
              c.batch c2.batch
            let r2 := maybeDeleteSubTreeRuns ld c.rnode c2.rnode h (2 * c.iBatch + 2)
              c.batch c2.batch
            let runs := (joined r1.1 r2.1).map (fun l => revertedNode maybeDelete c.iBatch ++ l)
            match r1.2, r2.2 with
            | some err1, _ => (runs, some err1)
            | none, some err2 => (runs, some err2)
            | none, none => (runs, none)

/-- The levels of the recursion of `maybeDeleteSubTree` as in `diffLevels`, but
with the batch index `loadChildren` returned for `maybeDelete` itself at each
level, the one that the source discards. -/
def diffOwnLevels (ld : Loader) (original maybeDelete : Bytes) (height iBatch : Nat)
    (batch batch2 : Batch) : List (Bytes × Nat) :=
  if original = maybeDelete ∨ maybeDelete.length = 0 then []
  else
    match height with
    | 0 => []
    | h + 1 =>
      match ld original (h + 1) iBatch batch with
      | .error _ => []
      | .ok c =>
        match ld maybeDelete (h + 1) c.iBatch batch2 with
        | .error _ => []
        | .ok c2 =>
          if c.isShortcut ≠ c2.isShortcut then
            if c.isShortcut then deleteLevels ld maybeDelete (h + 1) c.iBatch c2.batch
            else [(maybeDelete, c2.iBatch)]
          else if c.isShortcut then [(maybeDelete, c2.iBatch)]
          else
            (maybeDelete, c2.iBatch) ::
              (diffOwnLevels ld c.lnode c2.lnode h (2 * c.iBatch + 1) c.batch c2.batch ++
                diffOwnLevels ld c.rnode c2.rnode h (2 * c.iBatch + 2) c.batch c2.batch)

/-- What the source assumes of `loadChildren` when it discards the second
index ("the root of the batch is same so the batch is also same"): a load made
with an index that a load at the same height returned, returns that index. -/
def IndexStable (ld : Loader) : Prop :=
  ∀ n m h i b b2 c c2, ld n h i b = .ok c → ld m h c.iBatch b2 = .ok c2 →
    c2.iBatch = c.iBatch

end Ledger

namespace Labels

/-! ## Label collections (collection.go) -/

/-- A label instance.  The type `Instance` (`map[string]string`) is declared
outside the embedded sources; it is represented by its entries, one per key,
so `len(that)` is the length of the list and the nil and the empty map are
both the empty list. -/
abbrev Instance := List (String × String)

/-- The type `Collection` (collection.go 19): a slice of instances. -/
abbrev Collection := List Instance

/-- The loop `for _, label := range labels { if test(label) { return true } }`
followed by `return false`. -/
def rangeFinds (test : Instance → Bool) : Collection → Bool
  | [] => false
  | label :: rest => if test label then true else rangeFinds test rest

/-- `Collection.HasSubsetOf` (collection.go 23-33).  The method
`Instance.SubsetOf` is declared outside the embedded sources and is a
parameter: `SubsetOf i that` is `i.SubsetOf(that)`. -/
def HasSubsetOf (SubsetOf : Instance → Instance → Bool) (labels : Collection)
    (that : Instance) : Bool :=
  if labels.length = 0 then true
  else rangeFinds (fun label => SubsetOf label that) labels

/-- `Collection.IsSupersetOf` (collection.go 37-48). -/
def IsSupersetOf (SubsetOf : Instance → Instance → Bool) (labels : Collection)
    (that : Instance) : Bool :=
  if labels.length = 0 then decide (that.length = 0)
  else rangeFinds (fun label => SubsetOf that label) labels

/-- The value `that[k]` of a Go map: the value stored for `k`, or the empty
string when the key is absent. -/
def valueAt (that : Instance) (k : String) : String :=
  match that.find? (fun kv => kv.1 = k) with
  | some kv => kv.2
  | none => ""

/-- A subset test for examples: every entry of `i` has the same value in
`that`. -/
def entriesSubsetOf (i that : Instance) : Bool :=
  i.all (fun kv => valueAt that kv.1 = kv.2)

end Labels

namespace Ledger

/-! ## Unfolding and frame lemmas -/

theorem extend_emptyDB (db : CacheDB) : db.extend emptyDB = db := by
  cases db; simp [CacheDB.extend, emptyDB]

theorem recordLoad_extend (db x : CacheDB) (n : Bytes) :
    recordLoad (db.extend x) n = db.extend (recordLoad x n) := by
  simp [recordLoad, CacheDB.extend]

theorem maybeDeleteRevertedNode_extend (db x : CacheDB) (n : Bytes) (i : Nat) :
    maybeDeleteRevertedNode (db.extend x) n i = db.extend (maybeDeleteRevertedNode x n i) := by
  unfold maybeDeleteRevertedNode
  split <;> simp [CacheDB.extend]

theorem deleteSubTree_zero (ld : Loader) (root : Bytes) (i : Nat) (b : Batch) (db : CacheDB) :
    deleteSubTree ld root 0 i b db = (db, none) := by
  simp [deleteSubTree]

theorem deleteSubTree_extend (ld : Loader) (h : Nat) :
    ∀ (root : Bytes) (i : Nat) (b : Batch) (db x : CacheDB),
      deleteSubTree ld root h i b (db.extend x) =
        (db.extend (deleteSubTree ld root h i b x).1, (deleteSubTree ld root h i b x).2) := by
  induction h with
  | zero => intro root i b db x; simp [deleteSubTree]
  | succ h ih =>
    intro root i b db x
    unfold deleteSubTree
    by_cases hr : root.length = 0
    · simp [hr]
    · simp only [hr, if_false]
      cases hl : ld root (h + 1) i b with
      | error e => simp [recordLoad_extend]
      | ok c =>
        simp only [recordLoad_extend]
        cases hs : c.isShortcut with
        | true => simp [maybeDeleteRevertedNode_extend]
        | false =>
          simp only [Bool.not_false, if_true, ih]
          cases h1 : (deleteSubTree ld c.lnode h (2 * c.iBatch + 1) c.batch
              (recordLoad x root)).2 <;>
            cases h2 : (deleteSubTree ld c.rnode h (2 * c.iBatch + 2) c.batch
              (deleteSubTree ld c.lnode h (2 * c.iBatch + 1) c.batch
                (recordLoad x root)).1).2 <;>
            simp [maybeDeleteRevertedNode_extend]


theorem maybeDeleteSubTree_extend (ld : Loader) (h : Nat) :
    ∀ (o m : Bytes) (i : Nat) (b b2 : Batch) (db x : CacheDB),
      maybeDeleteSubTree ld o m h i b b2 (db.extend x) =
        (db.extend (maybeDeleteSubTree ld o m h i b b2 x).1,
          (maybeDeleteSubTree ld o m h i b b2 x).2) := by
  induction h with
  | zero => intro o m i b b2 db x; unfold maybeDeleteSubTree; split <;> simp
  | succ h ih =>
    intro o m i b b2 db x
    unfold maybeDeleteSubTree
    by_cases hg : o = m ∨ m.length = 0
    · simp only [hg, if_true]
    · simp only [hg, if_false]
      cases hl : ld o (h + 1) i b with
      | error e => simp [recordLoad_extend]
      | ok c =>
        simp only [recordLoad_extend]
        cases hl2 : ld m (h + 1) c.iBatch b2 with
        | error e => simp
        | ok c2 =>
          simp only []
          cases hs : c.isShortcut <;> cases hs2 : c2.isShortcut
          · simp only [ne_eq, not_true_eq_false, if_false, Bool.false_eq_true,
              maybeDeleteRevertedNode_extend, ih]
            cases h1 : (maybeDeleteSubTree ld c.lnode c2.lnode h (2 * c.iBatch + 1) c.batch
                c2.batch (maybeDeleteRevertedNode (recordLoad (recordLoad x o) m) m c.iBatch)).2 <;>
              cases h2 : (maybeDeleteSubTree ld c.rnode c2.rnode h (2 * c.iBatch + 2) c.batch
                c2.batch (maybeDeleteSubTree ld c.lnode c2.lnode h (2 * c.iBatch + 1) c.batch
                  c2.batch (maybeDeleteRevertedNode (recordLoad (recordLoad x o) m) m
                    c.iBatch)).1).2 <;>
              simp
          · simp [maybeDeleteRevertedNode_extend]
          · simp only [ne_eq, Bool.true_eq_false, not_false_eq_true, if_true,
              deleteSubTree_extend]
            cases h1 : (deleteSubTree ld m (h + 1) c.iBatch c2.batch
                (recordLoad (recordLoad x o) m)).2 <;> simp
          · simp only [ne_eq, not_true_eq_false, if_false, if_true]
            split <;> simp [maybeDeleteRevertedNode_extend]

/-- The appended digests and the reported error of `deleteSubTree` do not
depend on the loads recorded before the call. -/
theorem deleteSubTree_loaded_irrel (ld : Loader) (root : Bytes) (h i : Nat) (b : Batch)
    (db : CacheDB) (l : List Bytes) :
    (deleteSubTree ld root h i b ⟨db.nodesToRevert, l⟩).1.nodesToRevert =
        (deleteSubTree ld root h i b db).1.nodesToRevert ∧
      (deleteSubTree ld root h i b ⟨db.nodesToRevert, l⟩).2 =
        (deleteSubTree ld root h i b db).2 := by
  have e1 : (⟨db.nodesToRevert, l⟩ : CacheDB) =
      CacheDB.extend ⟨[], l⟩ ⟨db.nodesToRevert, []⟩ := by simp [CacheDB.extend]
  have e2 : db = CacheDB.extend ⟨[], db.loaded⟩ ⟨db.nodesToRevert, []⟩ := by
    cases db; simp [CacheDB.extend]
  rw [e1]
  conv => enter [1, 2]; rw [e2]
  conv => enter [2, 2]; rw [e2]
  simp only [deleteSubTree_extend]
  simp [CacheDB.extend]

/-! ## The diff: base cases and the shortcut cases -/

/-- C3 (diff reflexivity): comparing a digest with itself appends nothing to
the revert set, loads nothing from the store and reports a nil error, for
every height, batch index, batches, loader and state. -/
theorem maybeDeleteSubTree_same_digest (ld : Loader) (d : Bytes) (height iBatch : Nat)
    (batch batch2 : Batch) (db : CacheDB) :
    (maybeDeleteSubTree ld d d height iBatch batch batch2 db).1.nodesToRevert =
        db.nodesToRevert ∧
      (maybeDeleteSubTree ld d d height iBatch batch batch2 db).1.loaded = db.loaded ∧
      (maybeDeleteSubTree ld d d height iBatch batch batch2 db).2 = none := by
  unfold maybeDeleteSubTree
  simp

/-- C10 (base cases): when the second digest is empty or the height is 0,
`maybeDeleteSubTree` leaves the state untouched (nothing appended, nothing
loaded) and reports nil, whatever `original` is; `deleteSubTree` does the same
for an empty root or height 0. -/
theorem base_cases_untouched (ld : Loader) (original x : Bytes) (height iBatch : Nat)
    (batch batch2 : Batch) (db : CacheDB) (hx : x.length = 0 ∨ height = 0) :
    maybeDeleteSubTree ld original x height iBatch batch batch2 db = (db, none) ∧
      deleteSubTree ld x height iBatch batch db = (db, none) := by
  rcases hx with hx | hx
  · constructor
    · unfold maybeDeleteSubTree; simp [hx]
    · unfold deleteSubTree; cases height <;> simp [hx]
  · subst hx
    constructor
    · unfold maybeDeleteSubTree; split <;> simp
    · simp [deleteSubTree]

theorem base_cases_untouched_witness :
    (([] : Bytes).length = 0 ∨ 4 = 0) ∧
      maybeDeleteSubTree exampleLoader [1] [] 4 0 [] [] emptyDB = (emptyDB, none) ∧
      deleteSubTree exampleLoader [] 4 0 [] emptyDB = (emptyDB, none) :=
  ⟨Or.inl rfl, base_cases_untouched exampleLoader [1] [] 4 0 [] [] emptyDB (Or.inl rfl)⟩

/-- C7 (both shortcuts): when the two digests differ, the second is not empty,
the height is positive and both load as shortcuts, the call reports nil, loads
exactly the two nodes (no recursion), appends either nothing or the single
digest `maybeDelete`, and appends nothing when the two stored (key, value)
pairs are equal (so `maybeDelete` is appended only if the pairs differ). -/
theorem both_shortcuts (ld : Loader) (original maybeDelete : Bytes) (height iBatch : Nat)
    (batch batch2 : Batch) (db : CacheDB) (c c2 : Children)
    (hne : original ≠ maybeDelete) (hlen : maybeDelete.length ≠ 0) (hh : 0 < height)
    (hl : ld original height iBatch batch = .ok c)
    (hl2 : ld maybeDelete height c.iBatch batch2 = .ok c2)
    (hs : c.isShortcut = true) (hs2 : c2.isShortcut = true) :
    (maybeDeleteSubTree ld original maybeDelete height iBatch batch batch2 db).2 = none ∧
      (maybeDeleteSubTree ld original maybeDelete height iBatch batch batch2 db).1.loaded =
        db.loaded ++ [original, maybeDelete] ∧
      ((maybeDeleteSubTree ld original maybeDelete height iBatch batch batch2
            db).1.nodesToRevert = db.nodesToRevert ∨
        (maybeDeleteSubTree ld original maybeDelete height iBatch batch batch2
            db).1.nodesToRevert = db.nodesToRevert ++ [maybeDelete]) ∧
      ((c.lnode, c.rnode) = (c2.lnode, c2.rnode) →
        (maybeDeleteSubTree ld original maybeDelete height iBatch batch batch2
            db).1.nodesToRevert = db.nodesToRevert) := by
  obtain ⟨h, rfl⟩ : ∃ h, height = h + 1 := ⟨height - 1, by omega⟩
  unfold maybeDeleteSubTree
  simp only [hne, hlen, or_self, if_false, hl, hl2, hs, hs2, ne_eq, not_true_eq_false, if_true]
  by_cases hd : ¬c.lnode = c2.lnode ∨ ¬c.rnode = c2.rnode
  · simp only [hd, if_true]
    unfold maybeDeleteRevertedNode
    by_cases hi : c.iBatch = 0
    · simp only [hi, if_true, recordLoad]
      refine ⟨trivial, by simp, by simp, ?_⟩
      intro he
      simp only [Prod.mk.injEq] at he
      rcases hd with hd | hd
      · exact absurd he.1 hd
      · exact absurd he.2 hd
    · simp [hi, recordLoad]
  · simp [hd, recordLoad]

theorem both_shortcuts_witness :
    ([3] : Bytes) ≠ [13] ∧ ([13] : Bytes).length ≠ 0 ∧ 0 < 4 ∧
      (maybeDeleteSubTree exampleLoader [3] [13] 4 0 [] [] emptyDB).2 = none ∧
      (maybeDeleteSubTree exampleLoader [3] [13] 4 0 [] [] emptyDB).1.loaded =
        emptyDB.loaded ++ [[3], [13]] ∧
      ((maybeDeleteSubTree exampleLoader [3] [13] 4 0 [] [] emptyDB).1.nodesToRevert =
          emptyDB.nodesToRevert ∨
        (maybeDeleteSubTree exampleLoader [3] [13] 4 0 [] [] emptyDB).1.nodesToRevert =
          emptyDB.nodesToRevert ++ [[13]]) ∧
      ((([3] : Bytes), ([0] : Bytes)) = ([13], [0]) →
        (maybeDeleteSubTree exampleLoader [3] [13] 4 0 [] [] emptyDB).1.nodesToRevert =
          emptyDB.nodesToRevert) :=
  ⟨by decide, by decide, by decide,
    both_shortcuts exampleLoader [3] [13] 4 0 [] [] emptyDB ⟨[], 0, [3], [0], true⟩
      ⟨[], 0, [13], [0], true⟩ (by decide) (by decide) (by decide) rfl rfl rfl rfl⟩

/-- C9 (mixed case, `maybeDelete` is the shortcut): when the two digests
differ, the second is not empty, the height is positive, `original` loads as
an internal split and `maybeDelete` as a shortcut, the call reports nil, loads
exactly the two nodes themselves (no child is visited) and appends either
nothing or the single digest `maybeDelete`. -/
theorem shortcut_against_split (ld : Loader) (original maybeDelete : Bytes)
    (height iBatch : Nat) (batch batch2 : Batch) (db : CacheDB) (c c2 : Children)
    (hne : original ≠ maybeDelete) (hlen : maybeDelete.length ≠ 0) (hh : 0 < height)
    (hl : ld original height iBatch batch = .ok c)
    (hl2 : ld maybeDelete height c.iBatch batch2 = .ok c2)
    (hs : c.isShortcut = false) (hs2 : c2.isShortcut = true) :
    (maybeDeleteSubTree ld original maybeDelete height iBatch batch batch2 db).2 = none ∧
      (maybeDeleteSubTree ld original maybeDelete height iBatch batch batch2 db).1.loaded =
        db.loaded ++ [original, maybeDelete] ∧
      ((maybeDeleteSubTree ld original maybeDelete height iBatch batch batch2
            db).1.nodesToRevert = db.nodesToRevert ∨
        (maybeDeleteSubTree ld original maybeDelete height iBatch batch batch2
            db).1.nodesToRevert = db.nodesToRevert ++ [maybeDelete]) := by
  obtain ⟨h, rfl⟩ : ∃ h, height = h + 1 := ⟨height - 1, by omega⟩
  unfold maybeDeleteSubTree
  simp only [hne, hlen, or_self, if_false, hl, hl2, hs, hs2, ne_eq, Bool.false_eq_true,
    not_false_eq_true, if_true]
  unfold maybeDeleteRevertedNode
  by_cases hi : c.iBatch = 0 <;> simp [hi, recordLoad]

theorem shortcut_against_split_witness :
    ([1] : Bytes) ≠ [13] ∧ ([13] : Bytes).length ≠ 0 ∧ 0 < 4 ∧
      (maybeDeleteSubTree exampleLoader [1] [13] 4 0 [] [] emptyDB).2 = none ∧
      (maybeDeleteSubTree exampleLoader [1] [13] 4 0 [] [] emptyDB).1.loaded =
        emptyDB.loaded ++ [[1], [13]] ∧
      ((maybeDeleteSubTree exampleLoader [1] [13] 4 0 [] [] emptyDB).1.nodesToRevert =
          emptyDB.nodesToRevert ∨
        (maybeDeleteSubTree exampleLoader [1] [13] 4 0 [] [] emptyDB).1.nodesToRevert =
          emptyDB.nodesToRevert ++ [[13]]) :=
  ⟨by decide, by decide, by decide,
    shortcut_against_split exampleLoader [1] [13] 4 0 [] [] emptyDB ⟨[], 0, [2], [3], false⟩
      ⟨[], 0, [13], [0], true⟩ (by decide) (by decide) (by decide) rfl rfl rfl rfl⟩

/-- With `original` a shortcut and `maybeDelete` an internal split, the diff
hands over to `deleteSubTree`. -/
theorem maybeDeleteSubTree_defers (ld : Loader) (original maybeDelete : Bytes)
    (height iBatch : Nat) (batch batch2 : Batch) (db : CacheDB) (c c2 : Children)
    (hne : original ≠ maybeDelete) (hlen : maybeDelete.length ≠ 0) (hh : 0 < height)
    (hl : ld original height iBatch batch = .ok c)
    (hl2 : ld maybeDelete height c.iBatch batch2 = .ok c2)
    (hs : c.isShortcut = true) (hs2 : c2.isShortcut = false) :
    (maybeDeleteSubTree ld original maybeDelete height iBatch batch batch2
          db).1.nodesToRevert =
        (deleteSubTree ld maybeDelete height c.iBatch c2.batch db).1.nodesToRevert ∧
      (maybeDeleteSubTree ld original maybeDelete height iBatch batch batch2 db).2 =
        (deleteSubTree ld maybeDelete height c.iBatch c2.batch db).2 := by
  obtain ⟨h, rfl⟩ : ∃ h, height = h + 1 := ⟨height - 1, by omega⟩
  have key := deleteSubTree_loaded_irrel ld maybeDelete (h + 1) c.iBatch c2.batch db
    (db.loaded ++ [original] ++ [maybeDelete])
  have hdb : recordLoad (recordLoad db original) maybeDelete =
      ⟨db.nodesToRevert, db.loaded ++ [original] ++ [maybeDelete]⟩ := by
    simp [recordLoad]
  rw [maybeDeleteSubTree]
  simp only [hne, hlen, or_self, if_false, hl, hl2, hs, hs2, ne_eq, Bool.true_eq_false,
    not_false_eq_true, if_true, hdb]
  cases he : (deleteSubTree ld maybeDelete (h + 1) c.iBatch c2.batch
      ⟨db.nodesToRevert, db.loaded ++ [original] ++ [maybeDelete]⟩).2 with
  | none => exact ⟨key.1, by rw [← key.2, he]⟩
  | some e => exact ⟨key.1, by rw [← key.2, he]⟩

/-- C8 (mixed case, `original` is the shortcut): when the two digests differ,
the second is not empty, the height is positive, `original` loads as a
shortcut and `maybeDelete` as an internal split, the revert set and the error
that `maybeDeleteSubTree` produces are exactly those that `deleteSubTree`
produces on `maybeDelete` from the same state at the same height (with the
batch index returned for `original` and the batch returned for
`maybeDelete`). -/
theorem split_against_shortcut (ld : Loader) (original maybeDelete : Bytes)
    (height iBatch : Nat) (batch batch2 : Batch) (db : CacheDB) (c c2 : Children)
    (hne : original ≠ maybeDelete) (hlen : maybeDelete.length ≠ 0) (hh : 0 < height)
    (hl : ld original height iBatch batch = .ok c)
    (hl2 : ld maybeDelete height c.iBatch batch2 = .ok c2)
    (hs : c.isShortcut = true) (hs2 : c2.isShortcut = false) :
    (maybeDeleteSubTree ld original maybeDelete height iBatch batch batch2
          db).1.nodesToRevert =
        (deleteSubTree ld maybeDelete height c.iBatch c2.batch db).1.nodesToRevert ∧
      (maybeDeleteSubTree ld original maybeDelete height iBatch batch batch2 db).2 =
        (deleteSubTree ld maybeDelete height c.iBatch c2.batch db).2 :=
  maybeDeleteSubTree_defers ld original maybeDelete height iBatch batch batch2 db c c2
    hne hlen hh hl hl2 hs hs2

theorem split_against_shortcut_witness :
    ([3] : Bytes) ≠ [11] ∧ ([11] : Bytes).length ≠ 0 ∧ 0 < 5 ∧
      (maybeDeleteSubTree exampleLoader [3] [11] 5 0 [] [] emptyDB).1.nodesToRevert =
        (deleteSubTree exampleLoader [11] 5 0 [] emptyDB).1.nodesToRevert ∧
      (maybeDeleteSubTree exampleLoader [3] [11] 5 0 [] [] emptyDB).2 =
        (deleteSubTree exampleLoader [11] 5 0 [] emptyDB).2 :=
  ⟨by decide, by decide, by decide,
    split_against_shortcut exampleLoader [3] [11] 5 0 [] [] emptyDB ⟨[], 0, [3], [0], true⟩
      ⟨[], 0, [12], [13], false⟩ (by decide) (by decide) (by decide) rfl rfl rfl rfl⟩

/-! ## The diff: two internal splits -/

/-- Every call of `maybeDeleteSubTree` only appends: the revert set it leaves
is the one it was given followed by the digests it would append to the empty
state. -/
theorem maybeDeleteSubTree_appends (ld : Loader) (o m : Bytes) (h i : Nat) (b b2 : Batch)
    (db : CacheDB) :
    (maybeDeleteSubTree ld o m h i b b2 db).1.nodesToRevert =
      db.nodesToRevert ++ (maybeDeleteSubTree ld o m h i b b2 emptyDB).1.nodesToRevert := by
  have e := maybeDeleteSubTree_extend ld h o m i b b2 db emptyDB
  rw [extend_emptyDB] at e
  rw [e]
  simp [CacheDB.extend]

/-- Every call of `deleteSubTree` only appends. -/
theorem deleteSubTree_appends (ld : Loader) (root : Bytes) (h i : Nat) (b : Batch)
    (db : CacheDB) :
    (deleteSubTree ld root h i b db).1.nodesToRevert =
      db.nodesToRevert ++ (deleteSubTree ld root h i b emptyDB).1.nodesToRevert := by
  have e := deleteSubTree_extend ld h root i b db emptyDB
  rw [extend_emptyDB] at e
  rw [e]
  simp [CacheDB.extend]

/-- The reported error of `deleteSubTree` does not depend on the state. -/
theorem deleteSubTree_err (ld : Loader) (root : Bytes) (h i : Nat) (b : Batch)
    (db : CacheDB) :
    (deleteSubTree ld root h i b db).2 = (deleteSubTree ld root h i b emptyDB).2 := by
  have e := deleteSubTree_extend ld h root i b db emptyDB
  rw [extend_emptyDB] at e
  rw [e]

/-- The reported error of `maybeDeleteSubTree` does not depend on the state. -/
theorem maybeDeleteSubTree_err (ld : Loader) (o m : Bytes) (h i : Nat) (b b2 : Batch)
    (db : CacheDB) :
    (maybeDeleteSubTree ld o m h i b b2 db).2 =
      (maybeDeleteSubTree ld o m h i b b2 emptyDB).2 := by
  have e := maybeDeleteSubTree_extend ld h o m i b b2 db emptyDB
  rw [extend_emptyDB] at e
  rw [e]

/-- C4 as stated fails: in the example store, `[2]` and `[12]` are distinct,
`[12]` is not empty, the height 3 is positive and both load as internal
splits, at batch index 1; `maybeDeleteSubTree` does not append `[12]`. -/
theorem internal_split_not_always_scheduled :
    ([2] : Bytes) ≠ [12] ∧ ([12] : Bytes).length ≠ 0 ∧ 0 < 3 ∧
      (∃ c c2 : Children, exampleLoader [2] 3 1 [] = .ok c ∧
        exampleLoader [12] 3 c.iBatch [] = .ok c2 ∧
        c.isShortcut = false ∧ c2.isShortcut = false) ∧
      [12] ∉ (maybeDeleteSubTree exampleLoader [2] [12] 3 1 [] [] emptyDB).1.nodesToRevert :=
  ⟨by decide, by decide, by decide,
    ⟨⟨[], 1, [4], [5], false⟩, ⟨[], 1, [14], [15], false⟩, rfl, rfl, rfl, rfl⟩, by decide⟩

/-- With two internal splits, the diff appends `maybeDelete` when the batch
index is 0 and descends into the two pairs of children. -/
theorem maybeDeleteSubTree_descends (ld : Loader) (original maybeDelete : Bytes)
    (height iBatch : Nat) (batch batch2 : Batch) (db : CacheDB) (c c2 : Children)
    (hne : original ≠ maybeDelete) (hlen : maybeDelete.length ≠ 0) (hh : 0 < height)
    (hl : ld original height iBatch batch = .ok c)
    (hl2 : ld maybeDelete height c.iBatch batch2 = .ok c2)
    (hs : c.isShortcut = false) (hs2 : c2.isShortcut = false) :
    (maybeDeleteSubTree ld original maybeDelete height iBatch batch batch2 db).1 =
        (maybeDeleteSubTree ld c.rnode c2.rnode (height - 1) (2 * c.iBatch + 2) c.batch
          c2.batch
          (maybeDeleteSubTree ld c.lnode c2.lnode (height - 1) (2 * c.iBatch + 1) c.batch
            c2.batch
            ⟨db.nodesToRevert ++ (if c.iBatch = 0 then [maybeDelete] else []),
              db.loaded ++ [original, maybeDelete]⟩).1).1 ∧
      (maybeDeleteSubTree ld original maybeDelete height iBatch batch batch2
          db).1.nodesToRevert =
        db.nodesToRevert ++ (if c.iBatch = 0 then [maybeDelete] else []) ++
          (maybeDeleteSubTree ld c.lnode c2.lnode (height - 1) (2 * c.iBatch + 1) c.batch
            c2.batch emptyDB).1.nodesToRevert ++
          (maybeDeleteSubTree ld c.rnode c2.rnode (height - 1) (2 * c.iBatch + 2) c.batch
            c2.batch emptyDB).1.nodesToRevert := by
  obtain ⟨h, rfl⟩ : ∃ h, height = h + 1 := ⟨height - 1, by omega⟩
  have hdb : maybeDeleteRevertedNode (recordLoad (recordLoad db original) maybeDelete)
      maybeDelete c.iBatch =
      ⟨db.nodesToRevert ++ (if c.iBatch = 0 then [maybeDelete] else []),
        db.loaded ++ [original, maybeDelete]⟩ := by
    unfold maybeDeleteRevertedNode
    by_cases hi : c.iBatch = 0 <;> simp [hi, recordLoad]
  have step : (maybeDeleteSubTree ld original maybeDelete (h + 1) iBatch batch batch2 db).1 =
      (maybeDeleteSubTree ld c.rnode c2.rnode h (2 * c.iBatch + 2) c.batch c2.batch
        (maybeDeleteSubTree ld c.lnode c2.lnode h (2 * c.iBatch + 1) c.batch c2.batch
          ⟨db.nodesToRevert ++ (if c.iBatch = 0 then [maybeDelete] else []),
            db.loaded ++ [original, maybeDelete]⟩).1).1 := by
    rw [maybeDeleteSubTree]
    simp only [hne, hlen, or_self, if_false, hl, hl2, hs, hs2, ne_eq, not_true_eq_false,
      Bool.false_eq_true, hdb]
    split <;> rfl
  refine ⟨by simpa using step, ?_⟩
  rw [step, maybeDeleteSubTree_appends, maybeDeleteSubTree_appends ld c.lnode]
  simp

/-- C4, amended: when the two digests differ, the second is not empty, the
height is positive and both load as internal splits, `maybeDeleteSubTree`
appends `maybeDelete` exactly when the batch index `i` returned by
`loadChildren` for `original` is 0, and then compares the left children and
after them the right children, at `height - 1`, with batch indices `2i+1` and
`2i+2` and the two batches the loads returned: the final state is the one that
these two comparisons leave, so the revert set starts with the set given,
then `maybeDelete` if `i = 0`, then whatever the children append. -/
theorem internal_splits_step (ld : Loader) (original maybeDelete : Bytes)
    (height iBatch : Nat) (batch batch2 : Batch) (db : CacheDB) (c c2 : Children)
    (hne : original ≠ maybeDelete) (hlen : maybeDelete.length ≠ 0) (hh : 0 < height)
    (hl : ld original height iBatch batch = .ok c)
    (hl2 : ld maybeDelete height c.iBatch batch2 = .ok c2)
    (hs : c.isShortcut = false) (hs2 : c2.isShortcut = false) :
    (maybeDeleteSubTree ld original maybeDelete height iBatch batch batch2 db).1 =
        (maybeDeleteSubTree ld c.rnode c2.rnode (height - 1) (2 * c.iBatch + 2) c.batch
          c2.batch
          (maybeDeleteSubTree ld c.lnode c2.lnode (height - 1) (2 * c.iBatch + 1) c.batch
            c2.batch
            ⟨db.nodesToRevert ++ (if c.iBatch = 0 then [maybeDelete] else []),
              db.loaded ++ [original, maybeDelete]⟩).1).1 ∧
      (maybeDeleteSubTree ld original maybeDelete height iBatch batch batch2
          db).1.nodesToRevert =
        db.nodesToRevert ++ (if c.iBatch = 0 then [maybeDelete] else []) ++
          (maybeDeleteSubTree ld c.lnode c2.lnode (height - 1) (2 * c.iBatch + 1) c.batch
            c2.batch emptyDB).1.nodesToRevert ++
          (maybeDeleteSubTree ld c.rnode c2.rnode (height - 1) (2 * c.iBatch + 2) c.batch
            c2.batch emptyDB).1.nodesToRevert :=
  maybeDeleteSubTree_descends ld original maybeDelete height iBatch batch batch2 db c c2
    hne hlen hh hl hl2 hs hs2

theorem internal_splits_step_witness :
    ([1] : Bytes) ≠ [11] ∧ ([11] : Bytes).length ≠ 0 ∧ 0 < 5 ∧
      (maybeDeleteSubTree exampleLoader [1] [11] 5 0 [] [] emptyDB).1 =
        (maybeDeleteSubTree exampleLoader [3] [13] (5 - 1) (2 * 0 + 2) [] []
          (maybeDeleteSubTree exampleLoader [2] [12] (5 - 1) (2 * 0 + 1) [] []
            ⟨emptyDB.nodesToRevert ++ (if 0 = 0 then [[11]] else []),
              emptyDB.loaded ++ [[1], [11]]⟩).1).1 ∧
      (maybeDeleteSubTree exampleLoader [1] [11] 5 0 [] [] emptyDB).1.nodesToRevert =
        emptyDB.nodesToRevert ++ (if 0 = 0 then [[11]] else []) ++
          (maybeDeleteSubTree exampleLoader [2] [12] (5 - 1) (2 * 0 + 1) [] []
            emptyDB).1.nodesToRevert ++
          (maybeDeleteSubTree exampleLoader [3] [13] (5 - 1) (2 * 0 + 2) [] []
            emptyDB).1.nodesToRevert :=
  ⟨by decide, by decide, by decide,
    internal_splits_step exampleLoader [1] [11] 5 0 [] [] emptyDB ⟨[], 0, [2], [3], false⟩
      ⟨[], 0, [12], [13], false⟩ (by decide) (by decide) (by decide) rfl rfl rfl rfl⟩

/-! ## Deleting a whole subtree -/

theorem batchRoots_zero (ld : Loader) (root : Bytes) (i : Nat) (b : Batch) (hi : i ≠ 0) :
    batchRoots ld root 0 i b = [] := by
  unfold batchRoots reachable
  split <;> simp [hi]

theorem batchRoots_empty (ld : Loader) (root : Bytes) (h i : Nat) (b : Batch)
    (hr : root.length = 0) : batchRoots ld root h i b = [] := by
  unfold batchRoots reachable
  cases h <;> simp [hr]

theorem batchRoots_shortcut (ld : Loader) (root : Bytes) (h i : Nat) (b : Batch) (c : Children)
    (hr : root.length ≠ 0) (hl : ld root (h + 1) i b = .ok c) (hs : c.isShortcut = true) :
    batchRoots ld root (h + 1) i b = if c.iBatch = 0 then [root] else [] := by
  unfold batchRoots reachable
  simp only [hr, if_false, hl, hs, if_true]
  by_cases hi : c.iBatch = 0 <;> simp [hi]

theorem batchRoots_split (ld : Loader) (root : Bytes) (h i : Nat) (b : Batch) (c : Children)
    (hr : root.length ≠ 0) (hl : ld root (h + 1) i b = .ok c) (hs : c.isShortcut = false) :
    batchRoots ld root (h + 1) i b =
      (if c.iBatch = 0 then [root] else []) ++
        (batchRoots ld c.lnode h (2 * c.iBatch + 1) c.batch ++
          batchRoots ld c.rnode h (2 * c.iBatch + 2) c.batch) := by
  unfold batchRoots
  rw [reachable]
  simp only [hr, if_false, hl, hs, Bool.false_eq_true]
  by_cases hi : c.iBatch = 0 <;> simp [hi, List.filter_cons]

/-- With every load succeeding, `deleteSubTree` reports nil and appends, up to
order, exactly the batch roots reachable from `root`. -/
theorem deleteSubTree_batchRoots (ld : Loader)
    (hld : ∀ n h i b, ∃ c, ld n h i b = .ok c) (h : Nat) :
    ∀ (root : Bytes) (i : Nat) (b : Batch), (h = 0 → i ≠ 0) →
      (deleteSubTree ld root h i b emptyDB).2 = none ∧
        (deleted ld root h i b).Perm (batchRoots ld root h i b) := by
  induction h with
  | zero =>
    intro root i b hi
    rw [batchRoots_zero ld root i b (hi rfl)]
    simp [deleted, deleteSubTree, emptyDB]
  | succ h ih =>
    intro root i b _
    by_cases hr : root.length = 0
    · rw [batchRoots_empty ld root (h + 1) i b hr]
      simp [deleted, deleteSubTree, hr, emptyDB]
    · obtain ⟨c, hl⟩ := hld root (h + 1) i b
      cases hs : c.isShortcut with
      | true =>
        rw [batchRoots_shortcut ld root h i b c hr hl hs]
        unfold deleted
        rw [deleteSubTree]
        simp only [hr, if_false, hl, hs, Bool.not_true, Bool.false_eq_true]
        unfold maybeDeleteRevertedNode
        by_cases hi : c.iBatch = 0 <;> simp [hi, recordLoad, emptyDB]
      | false =>
        rw [batchRoots_split ld root h i b c hr hl hs]
        obtain ⟨e1, p1⟩ := ih c.lnode (2 * c.iBatch + 1) c.batch (fun _ => by omega)
        obtain ⟨e2, p2⟩ := ih c.rnode (2 * c.iBatch + 2) c.batch (fun _ => by omega)
        have e1x := deleteSubTree_err ld c.lnode h (2 * c.iBatch + 1) c.batch
          (recordLoad emptyDB root)
        rw [e1] at e1x
        have e2x := deleteSubTree_err ld c.rnode h (2 * c.iBatch + 2) c.batch
          (deleteSubTree ld c.lnode h (2 * c.iBatch + 1) c.batch (recordLoad emptyDB root)).1
        rw [e2] at e2x
        have key : deleteSubTree ld root (h + 1) i b emptyDB =
            (maybeDeleteRevertedNode
              (deleteSubTree ld c.rnode h (2 * c.iBatch + 2) c.batch
                (deleteSubTree ld c.lnode h (2 * c.iBatch + 1) c.batch
                  (recordLoad emptyDB root)).1).1 root c.iBatch, none) := by
          rw [deleteSubTree]
          simp only [hr, if_false, hl, hs, Bool.not_false, if_true, e1x, e2x]
        have hn : (deleted ld root (h + 1) i b) =
            deleted ld c.lnode h (2 * c.iBatch + 1) c.batch ++
              deleted ld c.rnode h (2 * c.iBatch + 2) c.batch ++
              (if c.iBatch = 0 then [root] else []) := by
          unfold deleted
          rw [key]
          have a2 := deleteSubTree_appends ld c.rnode h (2 * c.iBatch + 2) c.batch
            (deleteSubTree ld c.lnode h (2 * c.iBatch + 1) c.batch (recordLoad emptyDB root)).1
          have a1 := deleteSubTree_appends ld c.lnode h (2 * c.iBatch + 1) c.batch
            (recordLoad emptyDB root)
          have hm : ∀ d : CacheDB, (maybeDeleteRevertedNode d root c.iBatch).nodesToRevert =
              d.nodesToRevert ++ (if c.iBatch = 0 then [root] else []) := by
            intro d
            unfold maybeDeleteRevertedNode
            split <;> simp
          rw [hm, a2, a1]
          simp [recordLoad, emptyDB]
        refine ⟨by rw [key], ?_⟩
        rw [hn]
        exact (List.perm_append_comm).trans ((List.Perm.refl _).append (p1.append p2))

/-- C5 as stated fails: in the example store every load succeeds, `[1]` is not
empty and the height 4 is positive; node `[2]` is reachable from `[1]` (its
left child, at batch index 1), `deleteSubTree` reports nil, and `[2]` is not in
the revert set. -/
theorem deleteSubTree_skips_inner_nodes :
    (∀ n h i b, ∃ c, exampleLoader n h i b = .ok c) ∧
      ([1] : Bytes).length ≠ 0 ∧ 0 < 4 ∧
      (([2] : Bytes), 1) ∈ reachable exampleLoader [1] 4 0 [] ∧
      (deleteSubTree exampleLoader [1] 4 0 [] emptyDB).2 = none ∧
      [2] ∉ (deleteSubTree exampleLoader [1] 4 0 [] emptyDB).1.nodesToRevert :=
  ⟨fun _ _ _ _ => ⟨_, rfl⟩, by decide, by decide, by decide, by decide, by decide⟩

/-- C5, amended: for every root, every height > 0 and every loader whose loads
all succeed, `deleteSubTree` reports nil and leaves in the revert set the
digest of every node reachable from `root` whose batch index, as returned by
`loadChildren`, is 0. -/
theorem deleteSubTree_schedules_batch_roots (ld : Loader) (root : Bytes) (height iBatch : Nat)
    (batch : Batch) (db : CacheDB) (hld : ∀ n h i b, ∃ c, ld n h i b = .ok c)
    (hh : 0 < height) :
    (deleteSubTree ld root height iBatch batch db).2 = none ∧
      ∀ n ∈ reachable ld root height iBatch batch, n.2 = 0 →
        n.1 ∈ (deleteSubTree ld root height iBatch batch db).1.nodesToRevert := by
  obtain ⟨e, p⟩ := deleteSubTree_batchRoots ld hld height root iBatch batch (fun h0 => by omega)
  refine ⟨by rw [deleteSubTree_err, e], ?_⟩
  intro n hn h0
  rw [deleteSubTree_appends]
  apply List.mem_append_right
  apply p.symm.subset
  unfold batchRoots
  exact List.mem_map.mpr ⟨n, List.mem_filter.mpr ⟨hn, by simpa using h0⟩, rfl⟩

theorem deleteSubTree_schedules_batch_roots_witness :
    (∀ n h i b, ∃ c, exampleLoader n h i b = .ok c) ∧ 0 < 5 ∧
      (deleteSubTree exampleLoader [11] 5 0 [] emptyDB).2 = none ∧
      ∀ n ∈ reachable exampleLoader [11] 5 0 [], n.2 = 0 →
        n.1 ∈ (deleteSubTree exampleLoader [11] 5 0 [] emptyDB).1.nodesToRevert :=
  ⟨fun _ _ _ _ => ⟨_, rfl⟩, by decide,
    deleteSubTree_schedules_batch_roots exampleLoader [11] 5 0 [] emptyDB
      (fun _ _ _ _ => ⟨_, rfl⟩) (by decide)⟩

/-! ## Diffing two trees without a common node -/

theorem root_mem_reachable (ld : Loader) (root : Bytes) (h i : Nat) (b : Batch)
    (hr : root.length ≠ 0) : root ∈ (reachable ld root h i b).map Prod.fst := by
  unfold reachable
  cases h with
  | zero => simp [hr]
  | succ h =>
    simp only [hr, if_false]
    cases ld root (h + 1) i b <;> simp

/-- Under a store-backed loader the reachable nodes do not depend on the batch
passed in. -/
theorem reachable_batch_irrel (ld : Loader) (idx : Nat → Nat → Nat)
    (kids : Bytes → Nat → Bytes × Bytes × Bool) (hst : StoreBacked ld idx kids) (h : Nat) :
    ∀ (n : Bytes) (i : Nat) (b b' : Batch), reachable ld n h i b = reachable ld n h i b' := by
  induction h with
  | zero => intro n i b b'; simp [reachable]
  | succ h ih =>
    intro n i b b'
    obtain ⟨x, hx⟩ := hst.1 n (h + 1) i b
    obtain ⟨y, hy⟩ := hst.1 n (h + 1) i b'
    rw [reachable, reachable]
    simp only [hx, hy]
    rw [ih (kids n (h + 1)).1 _ x y, ih (kids n (h + 1)).2.1 _ x y]

/-- Above height 0, starting from the index the loader returns gives the same
reachable nodes as starting from the index it was given. -/
theorem reachable_index_stable (ld : Loader) (idx : Nat → Nat → Nat)
    (kids : Bytes → Nat → Bytes × Bytes × Bool) (hst : StoreBacked ld idx kids)
    (n : Bytes) (h i : Nat) (b b' : Batch) :
    reachable ld n (h + 1) (idx (h + 1) i) b = reachable ld n (h + 1) i b' := by
  obtain ⟨x, hx⟩ := hst.1 n (h + 1) (idx (h + 1) i) b
  obtain ⟨y, hy⟩ := hst.1 n (h + 1) i b'
  rw [reachable, reachable]
  simp only [hx, hy, hst.2.1]
  rw [reachable_batch_irrel ld idx kids hst h (kids n (h + 1)).1 _ x y,
    reachable_batch_irrel ld idx kids hst h (kids n (h + 1)).2.1 _ x y]

theorem reachable_empty (ld : Loader) (root : Bytes) (h i : Nat) (b : Batch)
    (hr : root.length = 0) : reachable ld root h i b = [] := by
  unfold reachable
  cases h <;> simp [hr]

theorem reachable_split (ld : Loader) (root : Bytes) (h i : Nat) (b : Batch) (c : Children)
    (hr : root.length ≠ 0) (hl : ld root (h + 1) i b = .ok c) (hs : c.isShortcut = false) :
    reachable ld root (h + 1) i b =
      (root, c.iBatch) :: (reachable ld c.lnode h (2 * c.iBatch + 1) c.batch ++
        reachable ld c.rnode h (2 * c.iBatch + 2) c.batch) := by
  rw [reachable]
  simp [hr, hl, hs]

/-- With two internal splits the error reported is the left child's if there
is one, otherwise the right child's. -/
theorem maybeDeleteSubTree_descends_err (ld : Loader) (original maybeDelete : Bytes)
    (h iBatch : Nat) (batch batch2 : Batch) (db : CacheDB) (c c2 : Children)
    (hne : original ≠ maybeDelete) (hlen : maybeDelete.length ≠ 0)
    (hl : ld original (h + 1) iBatch batch = .ok c)
    (hl2 : ld maybeDelete (h + 1) c.iBatch batch2 = .ok c2)
    (hs : c.isShortcut = false) (hs2 : c2.isShortcut = false) :
    (maybeDeleteSubTree ld original maybeDelete (h + 1) iBatch batch batch2 db).2 =
      match (maybeDeleteSubTree ld c.lnode c2.lnode h (2 * c.iBatch + 1) c.batch c2.batch
          emptyDB).2,
        (maybeDeleteSubTree ld c.rnode c2.rnode h (2 * c.iBatch + 2) c.batch c2.batch
          emptyDB).2 with
      | some err1, _ => some err1
      | none, some err2 => some err2
      | none, none => none := by
  rw [maybeDeleteSubTree]
  simp only [hne, hlen, or_self, if_false, hl, hl2, hs, hs2, ne_eq, not_true_eq_false,
    Bool.false_eq_true]
  rw [maybeDeleteSubTree_err ld c.lnode, maybeDeleteSubTree_err ld c.rnode]
  split <;> simp_all

/-- Under a store-backed loader in which distinct shortcuts store distinct
pairs, diffing two trees without a common digest reports nil and appends, up
to order, exactly the batch roots reachable from `maybeDelete`. -/
theorem maybeDeleteSubTree_batchRoots (ld : Loader) (idx : Nat → Nat → Nat)
    (kids : Bytes → Nat → Bytes × Bytes × Bool) (hst : StoreBacked ld idx kids)
    (hsc : ShortcutsDiffer kids) (h : Nat) :
    ∀ (o m : Bytes) (i : Nat) (b b2 : Batch), (h = 0 → i ≠ 0) →
      (∀ d ∈ (reachable ld o h i b).map Prod.fst, d ∉ (reachable ld m h i b2).map Prod.fst) →
      (maybeDeleteSubTree ld o m h i b b2 emptyDB).2 = none ∧
        (diffed ld o m h i b b2).Perm (batchRoots ld m h i b2) := by
  induction h with
  | zero =>
    intro o m i b b2 hi _
    rw [batchRoots_zero ld m i b2 (hi rfl)]
    unfold diffed maybeDeleteSubTree
    split <;> simp [emptyDB]
  | succ h ih =>
    intro o m i b b2 _ hdis
    by_cases hm : m.length = 0
    · rw [batchRoots_empty ld m (h + 1) i b2 hm]
      unfold diffed maybeDeleteSubTree
      simp [hm, emptyDB]
    · by_cases hom : o = m
      · exfalso
        subst hom
        exact hdis o (root_mem_reachable ld o (h + 1) i b hm)
          (root_mem_reachable ld o (h + 1) i b2 hm)
      · obtain ⟨bo, hlo⟩ := hst.1 o (h + 1) i b
        obtain ⟨bm, hlm⟩ := hst.1 m (h + 1) (idx (h + 1) i) b2
        obtain ⟨bm', hlm'⟩ := hst.1 m (h + 1) i b2
        rw [hst.2.1] at hlm
        have hld : ∀ n h i b, ∃ c, ld n h i b = .ok c := fun n h i b =>
          (hst.1 n h i b).elim fun b' hb => ⟨_, hb⟩
        cases hso : (kids o (h + 1)).2.2 <;> cases hsm : (kids m (h + 1)).2.2
        · -- two internal splits
          have hd := (maybeDeleteSubTree_descends ld o m (h + 1) i b b2 emptyDB _ _ hom hm
            (by omega) hlo hlm hso hsm).2
          have he := maybeDeleteSubTree_descends_err ld o m h i b b2 emptyDB _ _ hom hm
            hlo hlm hso hsm
          simp only [Nat.add_sub_cancel] at hd he
          have hl : ∀ d ∈ (reachable ld (kids o (h + 1)).1 h (2 * idx (h + 1) i + 1) bo).map
              Prod.fst, d ∉ (reachable ld (kids m (h + 1)).1 h (2 * idx (h + 1) i + 1)
                bm).map Prod.fst := by
            intro d hd1 hd2
            by_cases ho : o.length = 0
            · have : o = [] := List.length_eq_zero.mp ho
              rw [this, (hst.2.2 (h + 1)).1, reachable_empty ld [] _ _ _ rfl] at hd1
              simp at hd1
            · rw [reachable_batch_irrel ld idx kids hst h _ _ bm bm'] at hd2
              refine hdis d ?_ ?_
              · rw [reachable_split ld o h i b _ ho hlo hso]
                simp only [List.map_cons, List.map_append, List.mem_cons, List.mem_append]
                exact Or.inr (Or.inl hd1)
              · rw [reachable_split ld m h i b2 _ hm hlm' hsm]
                simp only [List.map_cons, List.map_append, List.mem_cons, List.mem_append]
                exact Or.inr (Or.inl hd2)
          have hr : ∀ d ∈ (reachable ld (kids o (h + 1)).2.1 h (2 * idx (h + 1) i + 2) bo).map
              Prod.fst, d ∉ (reachable ld (kids m (h + 1)).2.1 h (2 * idx (h + 1) i + 2)
                bm).map Prod.fst := by
            intro d hd1 hd2
            by_cases ho : o.length = 0
            · have : o = [] := List.length_eq_zero.mp ho
              rw [this, (hst.2.2 (h + 1)).2, reachable_empty ld [] _ _ _ rfl] at hd1
              simp at hd1
            · rw [reachable_batch_irrel ld idx kids hst h _ _ bm bm'] at hd2
              refine hdis d ?_ ?_
              · rw [reachable_split ld o h i b _ ho hlo hso]
                simp only [List.map_cons, List.map_append, List.mem_cons, List.mem_append]
                exact Or.inr (Or.inr hd1)
              · rw [reachable_split ld m h i b2 _ hm hlm' hsm]
                simp only [List.map_cons, List.map_append, List.mem_cons, List.mem_append]
                exact Or.inr (Or.inr hd2)
          obtain ⟨e1, p1⟩ := ih (kids o (h + 1)).1 (kids m (h + 1)).1 (2 * idx (h + 1) i + 1)
            bo bm (fun _ => by omega) hl
          obtain ⟨e2, p2⟩ := ih (kids o (h + 1)).2.1 (kids m (h + 1)).2.1
            (2 * idx (h + 1) i + 2) bo bm (fun _ => by omega) hr
          refine ⟨by rw [he, e1, e2], ?_⟩
          rw [batchRoots_split ld m h i b2 _ hm hlm' hsm]
          unfold diffed
          rw [hd]
          simp only [emptyDB, List.nil_append, List.append_assoc]
          refine (List.Perm.refl _).append (List.Perm.append ?_ ?_)
          · have e : batchRoots ld (kids m (h + 1)).1 h (2 * idx (h + 1) i + 1) bm' =
                batchRoots ld (kids m (h + 1)).1 h (2 * idx (h + 1) i + 1) bm := by
              unfold batchRoots
              rw [reachable_batch_irrel ld idx kids hst h _ _ bm' bm]
            rw [e]
            exact p1
          · have e : batchRoots ld (kids m (h + 1)).2.1 h (2 * idx (h + 1) i + 2) bm' =
                batchRoots ld (kids m (h + 1)).2.1 h (2 * idx (h + 1) i + 2) bm := by
              unfold batchRoots
              rw [reachable_batch_irrel ld idx kids hst h _ _ bm' bm]
            rw [e]
            exact p2
        · -- original a split, maybeDelete a shortcut
          rw [batchRoots_shortcut ld m h i b2 _ hm hlm' hsm]
          unfold diffed
          rw [maybeDeleteSubTree]
          simp only [hom, hm, or_self, if_false, hlo, hlm, hso, hsm, ne_eq,
            Bool.false_eq_true, not_false_eq_true, if_true]
          unfold maybeDeleteRevertedNode
          by_cases hi : idx (h + 1) i = 0 <;> simp [hi, recordLoad, emptyDB]
        · -- original a shortcut, maybeDelete a split
          have hd := maybeDeleteSubTree_defers ld o m (h + 1) i b b2 emptyDB _ _ hom hm
            (by omega) hlo hlm hso hsm
          obtain ⟨e, p⟩ := deleteSubTree_batchRoots ld hld (h + 1) m (idx (h + 1) i) bm
            (fun h0 => by omega)
          refine ⟨by rw [hd.2]; exact e, ?_⟩
          unfold diffed
          rw [hd.1]
          have e2 : batchRoots ld m (h + 1) i b2 = batchRoots ld m (h + 1) (idx (h + 1) i) bm := by
            unfold batchRoots
            rw [reachable_index_stable ld idx kids hst m h i bm b2]
          rw [e2]
          exact p
        · -- two shortcuts
          have hpair : ¬(kids o (h + 1)).1 = (kids m (h + 1)).1 ∨
              ¬(kids o (h + 1)).2.1 = (kids m (h + 1)).2.1 := by
            by_contra hc
            push_neg at hc
            exact hom (hsc o m (h + 1) hso hsm hc.1 hc.2)
          rw [batchRoots_shortcut ld m h i b2 _ hm hlm' hsm]
          unfold diffed
          rw [maybeDeleteSubTree]
          simp only [hom, hm, or_self, if_false, hlo, hlm, hso, hsm, ne_eq,
            not_true_eq_false, if_true, hpair]
          unfold maybeDeleteRevertedNode
          by_cases hi : idx (h + 1) i = 0 <;> simp [hi, recordLoad, emptyDB]

theorem exampleLoader_storeBacked :
    StoreBacked exampleLoader exampleIndex (fun n _ => exampleKids n) := by
  refine ⟨fun n h i b => ⟨b, rfl⟩, ?_, fun _ => ⟨rfl, rfl⟩⟩
  intro h i
  unfold exampleIndex
  split <;> simp_all

theorem exampleKids_shortcutsDiffer : ShortcutsDiffer (fun n _ => exampleKids n) := by
  intro n m _ hn hm h1 _
  simp only [exampleKids] at hn hm h1
  split_ifs at hn hm h1
  simp_all

/-- C6 as stated fails: in the example store every load succeeds and the trees
under `[1]` and `[11]` have no digest in common; node `[12]` is reachable from
`[11]` but is not scheduled by the diff, and the diff appends one digest while
five nodes are reachable from `[11]`. -/
theorem diff_skips_inner_nodes :
    (∀ n h i b, ∃ c, exampleLoader n h i b = .ok c) ∧
      (∀ d ∈ (reachable exampleLoader [1] 4 0 []).map Prod.fst,
        d ∉ (reachable exampleLoader [11] 4 0 []).map Prod.fst) ∧
      (([12] : Bytes), 1) ∈ reachable exampleLoader [11] 4 0 [] ∧
      [12] ∉ (maybeDeleteSubTree exampleLoader [1] [11] 4 0 [] [] emptyDB).1.nodesToRevert ∧
      (maybeDeleteSubTree exampleLoader [1] [11] 4 0 [] [] emptyDB).1.nodesToRevert.length = 1 ∧
      (reachable exampleLoader [11] 4 0 []).length = 5 :=
  ⟨fun _ _ _ _ => ⟨_, rfl⟩, by decide, by decide, by decide, by decide, by decide⟩

/-- C6, amended: for a store-backed loader (every load succeeds) in which
distinct shortcuts store distinct pairs, for every positive height and every
pair of trees without a common node digest, `maybeDeleteSubTree` reports nil,
leaves in the revert set the digest of every node reachable from `maybeDelete`
whose batch index is 0, and the number of digests it appends equals the number
of those batch-root nodes. -/
theorem diff_schedules_batch_roots (ld : Loader) (idx : Nat → Nat → Nat)
    (kids : Bytes → Nat → Bytes × Bytes × Bool) (original maybeDelete : Bytes)
    (height iBatch : Nat) (batch batch2 : Batch) (db : CacheDB)
    (hst : StoreBacked ld idx kids) (hsc : ShortcutsDiffer kids) (hh : 0 < height)
    (hdis : ∀ d ∈ (reachable ld original height iBatch batch).map Prod.fst,
      d ∉ (reachable ld maybeDelete height iBatch batch2).map Prod.fst) :
    (maybeDeleteSubTree ld original maybeDelete height iBatch batch batch2 db).2 = none ∧
      (∀ n ∈ reachable ld maybeDelete height iBatch batch2, n.2 = 0 →
        n.1 ∈ (maybeDeleteSubTree ld original maybeDelete height iBatch batch batch2
          db).1.nodesToRevert) ∧
      (maybeDeleteSubTree ld original maybeDelete height iBatch batch batch2
          db).1.nodesToRevert.length =
        db.nodesToRevert.length +
          ((reachable ld maybeDelete height iBatch batch2).filter (fun n => n.2 = 0)).length := by
  obtain ⟨e, p⟩ := maybeDeleteSubTree_batchRoots ld idx kids hst hsc height original
    maybeDelete iBatch batch batch2 (fun h0 => by omega) hdis
  refine ⟨by rw [maybeDeleteSubTree_err, e], ?_, ?_⟩
  · intro n hn h0
    rw [maybeDeleteSubTree_appends]
    apply List.mem_append_right
    apply p.symm.subset
    unfold batchRoots
    exact List.mem_map.mpr ⟨n, List.mem_filter.mpr ⟨hn, by simpa using h0⟩, rfl⟩
  · rw [maybeDeleteSubTree_appends, List.length_append]
    have := p.length_eq
    unfold diffed batchRoots at this
    rw [this, List.length_map]

theorem diff_schedules_batch_roots_witness :
    StoreBacked exampleLoader exampleIndex (fun n _ => exampleKids n) ∧
      ShortcutsDiffer (fun n _ => exampleKids n) ∧ 0 < 5 ∧
      (∀ d ∈ (reachable exampleLoader [1] 5 0 []).map Prod.fst,
        d ∉ (reachable exampleLoader [11] 5 0 []).map Prod.fst) ∧
      (maybeDeleteSubTree exampleLoader [1] [11] 5 0 [] [] emptyDB).2 = none ∧
      (∀ n ∈ reachable exampleLoader [11] 5 0 [], n.2 = 0 →
        n.1 ∈ (maybeDeleteSubTree exampleLoader [1] [11] 5 0 [] [] emptyDB).1.nodesToRevert) ∧
      (maybeDeleteSubTree exampleLoader [1] [11] 5 0 [] [] emptyDB).1.nodesToRevert.length =
        emptyDB.nodesToRevert.length +
          ((reachable exampleLoader [11] 5 0 []).filter (fun n => n.2 = 0)).length :=
  ⟨exampleLoader_storeBacked, exampleKids_shortcutsDiffer, by decide, by decide,
    diff_schedules_batch_roots exampleLoader exampleIndex (fun n _ => exampleKids n) [1] [11]
      5 0 [] [] emptyDB exampleLoader_storeBacked exampleKids_shortcutsDiffer (by decide)
      (by decide)⟩

/-! ## The ledger facade -/

theorem dropWhile_isSpace_pad (n : Nat) (s : GoString) :
    (List.replicate n spaceChar ++ s).dropWhile isSpace = s.dropWhile isSpace := by
  induction n with
  | zero => simp
  | succ n ih =>
    have hsp : isSpace spaceChar = true := by decide
    simp [List.replicate_succ, List.dropWhile_cons, hsp, ih]

/-- Trimming undoes the padding of `Sprintf8v`. -/
theorem TrimSpace_Sprintf8v (s : GoString) : TrimSpace (Sprintf8v s) = TrimSpace s := by
  unfold TrimSpace Sprintf8v
  rw [dropWhile_isSpace_pad]

/-- What `Get` returns for a key right after `Put` wrote it, over an engine
that reads the last write: the trimmed value, with a nil error. -/
theorem get_after_put {T : Type} (E : TreeEngine T) (hE : ReadsLastWrite E)
    (s : SMTLedger T) (k v : GoString) :
    (s.Put E k v).1.Get E k = (TrimSpace v, none) := by
  have h := hE s.tree (Sprintf8v k) (Sprintf8v v)
  simp only [SMTLedger.Get, SMTLedger.GetPreviousValue, SMTLedger.RootHash, SMTLedger.Put, h,
    TrimSpace_Sprintf8v]

theorem storeEngine_readsLastWrite : ReadsLastWrite storeEngine := by
  intro t k v
  simp [storeEngine, Store.root]

/-- C1 as stated fails: the example store reads the last write, yet after
`Put("k", " v")` on a new ledger `Get("k")` returns `"v"`, which is not the
value that was put. -/
theorem put_get_loses_outer_space :
    ReadsLastWrite storeEngine ∧
      (exampleLedger.Put storeEngine ['k'] [' ', 'v']).1.Get storeEngine ['k'] =
        (['v'], none) ∧
      ((exampleLedger.Put storeEngine ['k'] [' ', 'v']).1.Get storeEngine ['k']).1 ≠
        [' ', 'v'] :=
  ⟨storeEngine_readsLastWrite, by decide, by decide⟩

/-- C1, amended: over a tree engine in which `GetPreviousValue` at the current
root returns the bytes last written by `Update` for the key, for every ledger
state, every key `k` and every value `v` without leading or trailing white
space (`TrimSpace v = v`), `Put(k, v)` followed by `Get(k)` returns exactly `v`
with a nil error. -/
theorem put_get_roundtrip {T : Type} (E : TreeEngine T) (s : SMTLedger T) (k v : GoString)
    (hE : ReadsLastWrite E) (hv : TrimSpace v = v) :
    (s.Put E k v).1.Get E k = (v, none) := by
  rw [get_after_put E hE, hv]

theorem put_get_roundtrip_witness :
    ReadsLastWrite storeEngine ∧ TrimSpace ['v', ' ', 'w'] = ['v', ' ', 'w'] ∧
      (exampleLedger.Put storeEngine ['k'] ['v', ' ', 'w']).1.Get storeEngine ['k'] =
        (['v', ' ', 'w'], none) :=
  ⟨storeEngine_readsLastWrite, by decide,
    put_get_roundtrip storeEngine exampleLedger ['k'] ['v', ' ', 'w']
      storeEngine_readsLastWrite (by decide)⟩

/-- C2, the code at the failing input: on a new ledger over the example store,
after `Put("a", "1")` and `Delete("a")`, `Get("a")` still returns `"1"` with a
nil error, while a key that was never written reads as the trimmed
`DefaultLeaf`; for the 8-character key `"abcdefgh"` the same three calls do
end with the key absent. -/
theorem delete_short_key_keeps_value :
    (((exampleLedger.Put storeEngine ['a'] ['1']).1.Delete storeEngine ['a']).1.Get
        storeEngine ['a']) = (['1'], none) ∧
      exampleLedger.Get storeEngine ['a'] = (TrimSpace storeEngine.DefaultLeaf, none) ∧
      (['1'] : GoString) ≠ TrimSpace storeEngine.DefaultLeaf ∧
      (((exampleLedger.Put storeEngine ['a', 'b', 'c', 'd', 'e', 'f', 'g', 'h'] ['1']).1.Delete
          storeEngine ['a', 'b', 'c', 'd', 'e', 'f', 'g', 'h']).1.Get storeEngine
          ['a', 'b', 'c', 'd', 'e', 'f', 'g', 'h']) =
        (TrimSpace storeEngine.DefaultLeaf, none) :=
  ⟨by decide, by decide, by decide, by decide⟩

/-! ## Errors of the children -/

/-- With an internal split at the root, `deleteSubTree` runs both child
deletions, reports the first of their errors, and appends the root after the
children's digests only when neither failed and the batch index is 0. -/
theorem deleteSubTree_descends (ld : Loader) (root : Bytes) (h iBatch : Nat) (batch : Batch)
    (db : CacheDB) (c : Children) (hr : root.length ≠ 0)
    (hl : ld root (h + 1) iBatch batch = .ok c) (hs : c.isShortcut = false) :
    (deleteSubTree ld root (h + 1) iBatch batch db).2 =
        firstError (deleteSubTree ld c.lnode h (2 * c.iBatch + 1) c.batch emptyDB).2
          (deleteSubTree ld c.rnode h (2 * c.iBatch + 2) c.batch emptyDB).2 ∧
      (deleteSubTree ld root (h + 1) iBatch batch db).1.nodesToRevert =
        db.nodesToRevert ++ deleted ld c.lnode h (2 * c.iBatch + 1) c.batch ++
          deleted ld c.rnode h (2 * c.iBatch + 2) c.batch ++
          (if firstError (deleteSubTree ld c.lnode h (2 * c.iBatch + 1) c.batch emptyDB).2
              (deleteSubTree ld c.rnode h (2 * c.iBatch + 2) c.batch emptyDB).2 = none ∧
              c.iBatch = 0 then [root] else []) := by
  rw [deleteSubTree]
  simp only [hr, if_false, hl, hs, Bool.not_false, if_true]
  have a1 := deleteSubTree_appends ld c.lnode h (2 * c.iBatch + 1) c.batch (recordLoad db root)
  have a2 := deleteSubTree_appends ld c.rnode h (2 * c.iBatch + 2) c.batch
    (deleteSubTree ld c.lnode h (2 * c.iBatch + 1) c.batch (recordLoad db root)).1
  have e1 := deleteSubTree_err ld c.lnode h (2 * c.iBatch + 1) c.batch (recordLoad db root)
  have e2 := deleteSubTree_err ld c.rnode h (2 * c.iBatch + 2) c.batch
    (deleteSubTree ld c.lnode h (2 * c.iBatch + 1) c.batch (recordLoad db root)).1
  have hm : ∀ d : CacheDB, (maybeDeleteRevertedNode d root c.iBatch).nodesToRevert =
      d.nodesToRevert ++ (if c.iBatch = 0 then [root] else []) := by
    intro d
    unfold maybeDeleteRevertedNode
    split <;> simp
  have hrl : (recordLoad db root).nodesToRevert = db.nodesToRevert := rfl
  rw [e1, e2]
  unfold deleted
  cases h1 : (deleteSubTree ld c.lnode h (2 * c.iBatch + 1) c.batch emptyDB).2 <;>
    cases h2 : (deleteSubTree ld c.rnode h (2 * c.iBatch + 2) c.batch emptyDB).2 <;>
    simp [firstError, hm, a1, a2, hrl]

theorem firstError_ne_none (a b : GoError) :
    firstError a b ≠ none ↔ (a ≠ none ∨ b ≠ none) := by
  cases a <;> cases b <;> simp [firstError]

/-- C11 (errors of the children): when both sides are internal splits,
`maybeDeleteSubTree` reports the left comparison's error if it has one and
otherwise the right comparison's, so it reports an error exactly when one of
the two does; both comparisons are carried out whatever the other reports,
their digests all ending up in the revert set.  The same holds for the two
child deletions of `deleteSubTree` on an internal split, which appends the
root itself only when neither child failed (and the batch index is 0). -/
theorem children_errors_propagate (ld : Loader) (original maybeDelete root : Bytes)
    (height iBatch : Nat) (batch batch2 : Batch) (db : CacheDB) (c c2 cr : Children)
    (hne : original ≠ maybeDelete) (hlen : maybeDelete.length ≠ 0) (hh : 0 < height)
    (hl : ld original height iBatch batch = .ok c)
    (hl2 : ld maybeDelete height c.iBatch batch2 = .ok c2)
    (hs : c.isShortcut = false) (hs2 : c2.isShortcut = false)
    (hr : root.length ≠ 0) (hlr : ld root height iBatch batch = .ok cr)
    (hsr : cr.isShortcut = false) :
    ((maybeDeleteSubTree ld original maybeDelete height iBatch batch batch2 db).2 =
        firstError
          (diffErr ld c.lnode c2.lnode (height - 1) (2 * c.iBatch + 1) c.batch c2.batch)
          (diffErr ld c.rnode c2.rnode (height - 1) (2 * c.iBatch + 2) c.batch c2.batch) ∧
      ((maybeDeleteSubTree ld original maybeDelete height iBatch batch batch2 db).2 ≠ none ↔
        (diffErr ld c.lnode c2.lnode (height - 1) (2 * c.iBatch + 1) c.batch c2.batch ≠ none ∨
          diffErr ld c.rnode c2.rnode (height - 1) (2 * c.iBatch + 2) c.batch c2.batch ≠
            none)) ∧
      (maybeDeleteSubTree ld original maybeDelete height iBatch batch batch2
          db).1.nodesToRevert =
        db.nodesToRevert ++ (if c.iBatch = 0 then [maybeDelete] else []) ++
          diffed ld c.lnode c2.lnode (height - 1) (2 * c.iBatch + 1) c.batch c2.batch ++
          diffed ld c.rnode c2.rnode (height - 1) (2 * c.iBatch + 2) c.batch c2.batch) ∧
    ((deleteSubTree ld root height iBatch batch db).2 =
        firstError (deleteErr ld cr.lnode (height - 1) (2 * cr.iBatch + 1) cr.batch)
          (deleteErr ld cr.rnode (height - 1) (2 * cr.iBatch + 2) cr.batch) ∧
      ((deleteSubTree ld root height iBatch batch db).2 ≠ none ↔
        (deleteErr ld cr.lnode (height - 1) (2 * cr.iBatch + 1) cr.batch ≠ none ∨
          deleteErr ld cr.rnode (height - 1) (2 * cr.iBatch + 2) cr.batch ≠ none)) ∧
      (deleteSubTree ld root height iBatch batch db).1.nodesToRevert =
        db.nodesToRevert ++ deleted ld cr.lnode (height - 1) (2 * cr.iBatch + 1) cr.batch ++
          deleted ld cr.rnode (height - 1) (2 * cr.iBatch + 2) cr.batch ++
          (if firstError (deleteErr ld cr.lnode (height - 1) (2 * cr.iBatch + 1) cr.batch)
              (deleteErr ld cr.rnode (height - 1) (2 * cr.iBatch + 2) cr.batch) = none ∧
              cr.iBatch = 0 then [root] else [])) := by
  obtain ⟨h, rfl⟩ : ∃ h, height = h + 1 := ⟨height - 1, by omega⟩
  have hd := (maybeDeleteSubTree_descends ld original maybeDelete (h + 1) iBatch batch batch2
    db c c2 hne hlen hh hl hl2 hs hs2).2
  have he := maybeDeleteSubTree_descends_err ld original maybeDelete h iBatch batch batch2
    db c c2 hne hlen hl hl2 hs hs2
  have hx := deleteSubTree_descends ld root h iBatch batch db cr hr hlr hsr
  simp only [Nat.add_sub_cancel] at hd ⊢
  have he' : (maybeDeleteSubTree ld original maybeDelete (h + 1) iBatch batch batch2 db).2 =
      firstError (diffErr ld c.lnode c2.lnode h (2 * c.iBatch + 1) c.batch c2.batch)
        (diffErr ld c.rnode c2.rnode h (2 * c.iBatch + 2) c.batch c2.batch) := by
    rw [he]
    unfold diffErr firstError
    split <;> simp_all
  refine ⟨⟨he', ?_, hd⟩, ⟨hx.1, ?_, hx.2⟩⟩
  · rw [he', firstError_ne_none]
  · have := hx.1
    unfold deleteErr
    rw [this, firstError_ne_none]

theorem children_errors_propagate_witness :
    ([1] : Bytes) ≠ [11] ∧ ([11] : Bytes).length ≠ 0 ∧ 0 < 5 ∧ ([1] : Bytes).length ≠ 0 ∧
      ((maybeDeleteSubTree faultyLoader [1] [11] 5 0 [] [] emptyDB).2 =
          firstError (diffErr faultyLoader [2] [12] (5 - 1) (2 * 0 + 1) [] [])
            (diffErr faultyLoader [3] [13] (5 - 1) (2 * 0 + 2) [] []) ∧
        ((maybeDeleteSubTree faultyLoader [1] [11] 5 0 [] [] emptyDB).2 ≠ none ↔
          (diffErr faultyLoader [2] [12] (5 - 1) (2 * 0 + 1) [] [] ≠ none ∨
            diffErr faultyLoader [3] [13] (5 - 1) (2 * 0 + 2) [] [] ≠ none)) ∧
        (maybeDeleteSubTree faultyLoader [1] [11] 5 0 [] [] emptyDB).1.nodesToRevert =
          emptyDB.nodesToRevert ++ (if 0 = 0 then [[11]] else []) ++
            diffed faultyLoader [2] [12] (5 - 1) (2 * 0 + 1) [] [] ++
            diffed faultyLoader [3] [13] (5 - 1) (2 * 0 + 2) [] []) ∧
      ((deleteSubTree faultyLoader [1] 5 0 [] emptyDB).2 =
          firstError (deleteErr faultyLoader [2] (5 - 1) (2 * 0 + 1) [])
            (deleteErr faultyLoader [3] (5 - 1) (2 * 0 + 2) []) ∧
        ((deleteSubTree faultyLoader [1] 5 0 [] emptyDB).2 ≠ none ↔
          (deleteErr faultyLoader [2] (5 - 1) (2 * 0 + 1) [] ≠ none ∨
            deleteErr faultyLoader [3] (5 - 1) (2 * 0 + 2) [] ≠ none)) ∧
        (deleteSubTree faultyLoader [1] 5 0 [] emptyDB).1.nodesToRevert =
          emptyDB.nodesToRevert ++ deleted faultyLoader [2] (5 - 1) (2 * 0 + 1) [] ++
            deleted faultyLoader [3] (5 - 1) (2 * 0 + 2) [] ++
            (if firstError (deleteErr faultyLoader [2] (5 - 1) (2 * 0 + 1) [])
                (deleteErr faultyLoader [3] (5 - 1) (2 * 0 + 2) []) = none ∧
                0 = 0 then [[1]] else [])) :=
  ⟨by decide, by decide, by decide, by decide,
    children_errors_propagate faultyLoader [1] [11] [1] 5 0 [] [] emptyDB
      ⟨[], 0, [2], [3], false⟩ ⟨[], 0, [12], [13], false⟩ ⟨[], 0, [2], [3], false⟩
      (by decide) (by decide) (by decide) rfl rfl rfl rfl (by decide) rfl rfl⟩

/-! ## Failing loads -/

/-- C16 (store failures surface): past the guards (distinct digests, second
not empty, positive height), if loading `original` fails then
`maybeDeleteSubTree` reports exactly that error, has loaded `original` only
(`maybeDelete` is not loaded), and appends nothing; if loading `original`
succeeds and loading `maybeDelete` fails it reports that second error, has
loaded just the two nodes, and appends nothing.  `deleteSubTree` on a
non-empty root whose load fails reports that error, has loaded the root only,
and appends nothing. -/
theorem load_failures_surface (ld : Loader) (original maybeDelete root : Bytes)
    (height iBatch : Nat) (batch batch2 : Batch) (db : CacheDB)
    (hne : original ≠ maybeDelete) (hlen : maybeDelete.length ≠ 0) (hh : 0 < height)
    (hr : root.length ≠ 0) :
    (∀ e, ld original height iBatch batch = .error e →
        maybeDeleteSubTree ld original maybeDelete height iBatch batch batch2 db =
          (⟨db.nodesToRevert, db.loaded ++ [original]⟩, some e)) ∧
      (∀ c e, ld original height iBatch batch = .ok c →
        ld maybeDelete height c.iBatch batch2 = .error e →
        maybeDeleteSubTree ld original maybeDelete height iBatch batch batch2 db =
          (⟨db.nodesToRevert, db.loaded ++ [original, maybeDelete]⟩, some e)) ∧
      (∀ e, ld root height iBatch batch = .error e →
        deleteSubTree ld root height iBatch batch db =
          (⟨db.nodesToRevert, db.loaded ++ [root]⟩, some e)) := by
  obtain ⟨h, rfl⟩ : ∃ h, height = h + 1 := ⟨height - 1, by omega⟩
  refine ⟨?_, ?_, ?_⟩
  · intro e he
    rw [maybeDeleteSubTree]
    simp [hne, hlen, he, recordLoad]
  · intro c e hc he
    rw [maybeDeleteSubTree]
    simp [hne, hlen, hc, he, recordLoad]
  · intro e he
    rw [deleteSubTree]
    simp [hr, he, recordLoad]

theorem load_failures_surface_witness :
    maybeDeleteSubTree faultyLoader [2] [12] 4 1 [] [] emptyDB =
        (⟨[], [[2]]⟩, some "store read failed") ∧
      maybeDeleteSubTree faultyLoader [1] [2] 5 0 [] [] emptyDB =
        (⟨[], [[1], [2]]⟩, some "store read failed") ∧
      deleteSubTree faultyLoader [2] 4 1 [] emptyDB = (⟨[], [[2]]⟩, some "store read failed") :=
  ⟨(load_failures_surface faultyLoader [2] [12] [2] 4 1 [] [] emptyDB (by decide) (by decide)
      (by decide) (by decide)).1 _ rfl,
    (load_failures_surface faultyLoader [1] [2] [2] 5 0 [] [] emptyDB (by decide) (by decide)
      (by decide) (by decide)).2.1 ⟨[], 0, [2], [3], false⟩ _ rfl rfl,
    (load_failures_surface faultyLoader [1] [12] [2] 4 1 [] [] emptyDB (by decide) (by decide)
      (by decide) (by decide)).2.2 _ rfl⟩

/-- C18 as stated fails: in the faulty example store `[1]` and `[11]` load as
internal splits at height 3 with batch index 1, the left child comparison
fails, and `[11]` is not in the revert set. -/
theorem split_not_scheduled_off_batch_root :
    ([1] : Bytes) ≠ [11] ∧ ([11] : Bytes).length ≠ 0 ∧ 0 < 3 ∧
      (∃ c c2 : Children, faultyLoader [1] 3 1 [] = .ok c ∧
        faultyLoader [11] 3 c.iBatch [] = .ok c2 ∧
        c.isShortcut = false ∧ c2.isShortcut = false) ∧
      (maybeDeleteSubTree faultyLoader [1] [11] 3 1 [] [] emptyDB).2 ≠ none ∧
      [11] ∉ (maybeDeleteSubTree faultyLoader [1] [11] 3 1 [] [] emptyDB).1.nodesToRevert :=
  ⟨by decide, by decide, by decide,
    ⟨⟨[], 1, [2], [3], false⟩, ⟨[], 1, [12], [13], false⟩, rfl, rfl, rfl, rfl⟩,
    by decide, by decide⟩

/-- C18, amended: whenever `deleteSubTree` reports an error, its own append of
`root` has not taken place: either the load of `root` failed and the revert
set is unchanged, or `root` is an internal split and the revert set has gained
exactly what the two child deletions appended.  Conversely, when both sides of
the diff are internal splits and the batch index of the level is 0,
`maybeDeleteSubTree` appends `maybeDelete` before the digests of the child
comparisons, whatever these report. -/
theorem root_scheduled_after_children (ld : Loader) (original maybeDelete root : Bytes)
    (height iBatch : Nat) (batch batch2 : Batch) (db : CacheDB) (c c2 : Children)
    (hne : original ≠ maybeDelete) (hlen : maybeDelete.length ≠ 0) (hh : 0 < height)
    (hl : ld original height iBatch batch = .ok c)
    (hl2 : ld maybeDelete height c.iBatch batch2 = .ok c2)
    (hs : c.isShortcut = false) (hs2 : c2.isShortcut = false) (hi : c.iBatch = 0) :
    ((deleteSubTree ld root height iBatch batch db).2 ≠ none →
        (∃ e, ld root height iBatch batch = .error e ∧
          (deleteSubTree ld root height iBatch batch db).1.nodesToRevert = db.nodesToRevert) ∨
        (∃ cr, ld root height iBatch batch = .ok cr ∧ cr.isShortcut = false ∧
          (deleteSubTree ld root height iBatch batch db).1.nodesToRevert =
            db.nodesToRevert ++
              deleted ld cr.lnode (height - 1) (2 * cr.iBatch + 1) cr.batch ++
              deleted ld cr.rnode (height - 1) (2 * cr.iBatch + 2) cr.batch)) ∧
      (maybeDeleteSubTree ld original maybeDelete height iBatch batch batch2
          db).1.nodesToRevert =
        db.nodesToRevert ++ [maybeDelete] ++
          diffed ld c.lnode c2.lnode (height - 1) (2 * c.iBatch + 1) c.batch c2.batch ++
          diffed ld c.rnode c2.rnode (height - 1) (2 * c.iBatch + 2) c.batch c2.batch := by
  obtain ⟨h, rfl⟩ : ∃ h, height = h + 1 := ⟨height - 1, by omega⟩
  have hd := (maybeDeleteSubTree_descends ld original maybeDelete (h + 1) iBatch batch batch2
    db c c2 hne hlen hh hl hl2 hs hs2).2
  simp only [Nat.add_sub_cancel, hi, if_true] at hd ⊢
  refine ⟨?_, by simpa [diffed, hi] using hd⟩
  intro herr
  by_cases hr : root.length = 0
  · exfalso
    apply herr
    rw [deleteSubTree]
    simp [hr]
  · cases hlr : ld root (h + 1) iBatch batch with
    | error e =>
      left
      refine ⟨e, rfl, ?_⟩
      rw [deleteSubTree]
      simp [hr, hlr, recordLoad]
    | ok cr =>
      cases hsr : cr.isShortcut with
      | true =>
        exfalso
        apply herr
        rw [deleteSubTree]
        simp [hr, hlr, hsr]
      | false =>
        right
        have hx := deleteSubTree_descends ld root h iBatch batch db cr hr hlr hsr
        refine ⟨cr, rfl, hsr, ?_⟩
        rw [hx.1] at herr
        rw [hx.2]
        simp [herr]

theorem root_scheduled_after_children_witness :
    ([1] : Bytes) ≠ [11] ∧ ([11] : Bytes).length ≠ 0 ∧ 0 < 5 ∧
      (deleteSubTree faultyLoader [1] 5 0 [] emptyDB).2 ≠ none ∧
      ((deleteSubTree faultyLoader [1] 5 0 [] emptyDB).2 ≠ none →
        (∃ e, faultyLoader [1] 5 0 [] = .error e ∧
          (deleteSubTree faultyLoader [1] 5 0 [] emptyDB).1.nodesToRevert =
            emptyDB.nodesToRevert) ∨
        (∃ cr, faultyLoader [1] 5 0 [] = .ok cr ∧ cr.isShortcut = false ∧
          (deleteSubTree faultyLoader [1] 5 0 [] emptyDB).1.nodesToRevert =
            emptyDB.nodesToRevert ++
              deleted faultyLoader cr.lnode (5 - 1) (2 * cr.iBatch + 1) cr.batch ++
              deleted faultyLoader cr.rnode (5 - 1) (2 * cr.iBatch + 2) cr.batch)) ∧
      (maybeDeleteSubTree faultyLoader [1] [11] 5 0 [] [] emptyDB).1.nodesToRevert =
        emptyDB.nodesToRevert ++ [[11]] ++
          diffed faultyLoader [2] [12] (5 - 1) (2 * 0 + 1) [] [] ++
          diffed faultyLoader [3] [13] (5 - 1) (2 * 0 + 2) [] [] :=
  ⟨by decide, by decide, by decide, by decide,
    root_scheduled_after_children faultyLoader [1] [11] [1] 5 0 [] [] emptyDB
      ⟨[], 0, [2], [3], false⟩ ⟨[], 0, [12], [13], false⟩
      (by decide) (by decide) (by decide) rfl rfl rfl rfl rfl⟩

/-! ## Key encoding of the facade -/

/-- C19 (key encoding agreement): for every tree engine, ledger state, key and
value, `Put`, `GetPreviousValue` and `Get` are exactly the engine calls made
with the key left-padded with spaces to 8 characters; for a key of 8 or more
characters that padded key is the key itself, and `Delete` is the engine call
made with it. -/
theorem keys_encoded_alike {T : Type} (E : TreeEngine T) (s : SMTLedger T)
    (k v previousHash : GoString) :
    s.Put E k v =
        (⟨(E.Update s.tree [List.leftpad 8 spaceChar k] [Sprintf8v v]).1⟩,
          (E.Update s.tree [List.leftpad 8 spaceChar k] [Sprintf8v v]).2.1,
          (E.Update s.tree [List.leftpad 8 spaceChar k] [Sprintf8v v]).2.2) ∧
      s.GetPreviousValue E previousHash k =
        (TrimSpace (E.GetPreviousValue s.tree previousHash (List.leftpad 8 spaceChar k)).1,
          (E.GetPreviousValue s.tree previousHash (List.leftpad 8 spaceChar k)).2) ∧
      s.Get E k =
        (TrimSpace (E.GetPreviousValue s.tree (E.Root s.tree) (List.leftpad 8 spaceChar k)).1,
          (E.GetPreviousValue s.tree (E.Root s.tree) (List.leftpad 8 spaceChar k)).2) ∧
      (8 ≤ k.length →
        List.leftpad 8 spaceChar k = k ∧
          s.Delete E k =
            (⟨(E.Update s.tree [List.leftpad 8 spaceChar k] [E.DefaultLeaf]).1⟩,
              (E.Update s.tree [List.leftpad 8 spaceChar k] [E.DefaultLeaf]).2.2)) := by
  refine ⟨rfl, rfl, rfl, ?_⟩
  intro hk
  have hpad : List.leftpad 8 spaceChar k = k := by
    simp [List.leftpad, Nat.sub_eq_zero_of_le hk]
  refine ⟨hpad, ?_⟩
  rw [hpad]
  rfl

theorem keys_encoded_alike_witness :
    8 ≤ ['a', 'b', 'c', 'd', 'e', 'f', 'g', 'h'].length ∧
      List.leftpad 8 spaceChar ['a', 'b', 'c', 'd', 'e', 'f', 'g', 'h'] =
        ['a', 'b', 'c', 'd', 'e', 'f', 'g', 'h'] ∧
      exampleLedger.Delete storeEngine ['a', 'b', 'c', 'd', 'e', 'f', 'g', 'h'] =
        (⟨(storeEngine.Update exampleLedger.tree
            [List.leftpad 8 spaceChar ['a', 'b', 'c', 'd', 'e', 'f', 'g', 'h']]
            [storeEngine.DefaultLeaf]).1⟩,
          (storeEngine.Update exampleLedger.tree
            [List.leftpad 8 spaceChar ['a', 'b', 'c', 'd', 'e', 'f', 'g', 'h']]
            [storeEngine.DefaultLeaf]).2.2) :=
  ⟨by decide,
    (keys_encoded_alike storeEngine exampleLedger ['a', 'b', 'c', 'd', 'e', 'f', 'g', 'h']
      ['1'] []).2.2.2 (by decide)⟩

/-! ## Depth of the recursion -/

theorem ofNat_succ_sub_one (h : Nat) : Int.ofNat (h + 1) - 1 = Int.ofNat h := by
  simp

theorem ofNat_succ_ne_zero (h : Nat) : Int.ofNat (h + 1) ≠ 0 := by
  simp
  omega

/-- With fuel for `height` nested recursive calls, the integer-height
`deleteSubTree` returns, and returns what the embedding over natural heights
computes. -/
theorem deleteSubTreeFuel_eq (ld : LoaderZ) (h : Nat) :
    ∀ (fuel : Nat) (root : Bytes) (i : Nat) (b : Batch) (db : CacheDB), h ≤ fuel →
      deleteSubTreeFuel ld fuel root (Int.ofNat h) i b db =
        some (deleteSubTree ld.toLoader root h i b db) := by
  induction h with
  | zero =>
    intro fuel root i b db _
    rw [deleteSubTreeFuel]
    simp [deleteSubTree]
  | succ h ih =>
    intro fuel root i b db hf
    obtain ⟨f, rfl⟩ : ∃ f, fuel = f + 1 := ⟨fuel - 1, by omega⟩
    have hf' : h ≤ f := by omega
    rw [deleteSubTreeFuel, deleteSubTree]
    by_cases hr : root.length = 0
    · simp [hr]
    · simp only [ofNat_succ_ne_zero, hr, or_self, if_false]
      have hld : ld.toLoader root (h + 1) i b = ld root (Int.ofNat (h + 1)) i b := rfl
      rw [hld]
      cases hl : ld root (Int.ofNat (h + 1)) i b with
      | error e => rfl
      | ok c =>
        cases hs : c.isShortcut with
        | true => simp [hs]
        | false =>
          simp only [hs, Bool.not_false, if_true, ofNat_succ_sub_one, ih _ _ _ _ _ hf']
          split <;> simp_all

/-- With fuel for `height` nested recursive calls, the integer-height
`maybeDeleteSubTree` returns, and returns what the embedding over natural
heights computes. -/
theorem maybeDeleteSubTreeFuel_eq (ld : LoaderZ) (h : Nat) :
    ∀ (fuel : Nat) (o m : Bytes) (i : Nat) (b b2 : Batch) (db : CacheDB), h ≤ fuel →
      maybeDeleteSubTreeFuel ld fuel o m (Int.ofNat h) i b b2 db =
        some (maybeDeleteSubTree ld.toLoader o m h i b b2 db) := by
  induction h with
  | zero =>
    intro fuel o m i b b2 db _
    rw [maybeDeleteSubTreeFuel, maybeDeleteSubTree]
    split <;> simp
  | succ h ih =>
    intro fuel o m i b b2 db hf
    obtain ⟨f, rfl⟩ : ∃ f, fuel = f + 1 := ⟨fuel - 1, by omega⟩
    have hf' : h ≤ f := by omega
    rw [maybeDeleteSubTreeFuel, maybeDeleteSubTree]
    by_cases hg : o = m ∨ m.length = 0
    · rw [if_pos hg, if_pos hg]
    · rw [if_neg hg, if_neg hg, if_neg (ofNat_succ_ne_zero h)]
      have hld : ∀ n k bb, ld.toLoader n (h + 1) k bb = ld n (Int.ofNat (h + 1)) k bb :=
        fun _ _ _ => rfl
      simp only [hld]
      cases hl : ld o (Int.ofNat (h + 1)) i b with
      | error e => rfl
      | ok c =>
        simp only []
        cases hl2 : ld m (Int.ofNat (h + 1)) c.iBatch b2 with
        | error e => rfl
        | ok c2 =>
          simp only []
          cases hs : c.isShortcut <;> cases hs2 : c2.isShortcut
          · simp only [ne_eq, not_true_eq_false, if_false, Bool.false_eq_true,
              ofNat_succ_sub_one, ih _ _ _ _ _ _ _ hf']
            split <;> simp_all
          · simp
          · simp only [ne_eq, Bool.true_eq_false, not_false_eq_true, if_true,
              deleteSubTreeFuel_eq ld (h + 1) (f + 1) m c.iBatch c2.batch _ hf]
            split <;> simp_all
          · simp only [ne_eq, not_true_eq_false, if_false, if_true]
            split <;> simp

/-- C15 (bounded recursion): for every height `≥ 0`, every digests, batches,
loader and state, `maybeDeleteSubTree` and `deleteSubTree`, run with the height
as a Go `int` and each recursive call made at `height - 1`, return a result
with no more than `height` nested recursive calls, the recursion stopping at
height 0; the result is the one computed by recursion on the natural number
`height`. -/
theorem recursion_depth_bounded (ld : LoaderZ) (original maybeDelete root : Bytes)
    (height : Int) (fuel iBatch : Nat) (batch batch2 : Batch) (db : CacheDB)
    (hh : 0 ≤ height) (hf : height.toNat ≤ fuel) :
    maybeDeleteSubTreeFuel ld fuel original maybeDelete height iBatch batch batch2 db =
        some (maybeDeleteSubTree ld.toLoader original maybeDelete height.toNat iBatch batch
          batch2 db) ∧
      deleteSubTreeFuel ld fuel root height iBatch batch db =
        some (deleteSubTree ld.toLoader root height.toNat iBatch batch db) := by
  obtain ⟨n, rfl⟩ := Int.eq_ofNat_of_zero_le hh
  simp only [Int.toNat_ofNat] at hf ⊢
  exact ⟨maybeDeleteSubTreeFuel_eq ld n fuel original maybeDelete iBatch batch batch2 db hf,
    deleteSubTreeFuel_eq ld n fuel root iBatch batch db hf⟩

theorem recursion_depth_bounded_witness :
    (0 : Int) ≤ 5 ∧ (5 : Int).toNat ≤ 5 ∧
      maybeDeleteSubTreeFuel exampleLoaderZ 5 [1] [11] 5 0 [] [] emptyDB =
        some (maybeDeleteSubTree exampleLoaderZ.toLoader [1] [11] (5 : Int).toNat 0 [] []
          emptyDB) ∧
      deleteSubTreeFuel exampleLoaderZ 5 [11] 5 0 [] emptyDB =
        some (deleteSubTree exampleLoaderZ.toLoader [11] (5 : Int).toNat 0 [] emptyDB) :=
  ⟨by decide, by decide,
    recursion_depth_bounded exampleLoaderZ [1] [11] [11] 5 5 0 [] [] emptyDB (by decide)
      (by decide)⟩

/-! ## Concurrent and sequential execution -/

theorem interleavings_cons_cons (x y : Bytes) (xs ys : List Bytes) :
    interleavings (x :: xs) (y :: ys) =
      (interleavings xs (y :: ys)).map (fun l => x :: l) ++
        (interleavings (x :: xs) ys).map (fun l => y :: l) := rfl

theorem mem_interleavings_perm (xs : List Bytes) :
    ∀ (ys l : List Bytes), l ∈ interleavings xs ys → l.Perm (xs ++ ys) := by
  induction xs with
  | nil =>
    intro ys l hl
    simp [interleavings] at hl
    simp [hl]
  | cons x xs ihx =>
    intro ys
    induction ys with
    | nil =>
      intro l hl
      simp [interleavings, interleaveWith] at hl
      simp [hl]
    | cons y ys ihy =>
      intro l hl
      rw [interleavings_cons_cons] at hl
      simp only [List.mem_append, List.mem_map] at hl
      rcases hl with ⟨l', hl', rfl⟩ | ⟨l', hl', rfl⟩
      · exact (ihx (y :: ys) l' hl').cons x
      · have := (ihy l' hl').cons y
        exact this.trans (List.perm_middle.symm)

theorem append_mem_interleavings (xs : List Bytes) :
    ∀ ys : List Bytes, xs ++ ys ∈ interleavings xs ys := by
  induction xs with
  | nil => intro ys; simp [interleavings]
  | cons x xs ihx =>
    intro ys
    cases ys with
    | nil => simp [interleavings, interleaveWith]
    | cons y ys =>
      rw [interleavings_cons_cons]
      simp only [List.mem_append, List.mem_map]
      exact Or.inl ⟨xs ++ y :: ys, ihx (y :: ys), rfl⟩

theorem mem_joined (left right : List (List Bytes)) (l : List Bytes) :
    l ∈ joined left right ↔ ∃ xs ∈ left, ∃ ys ∈ right, l ∈ interleavings xs ys := by
  simp [joined, List.mem_flatMap]

theorem joined_perm (left right : List (List Bytes)) (dl dr : List Bytes)
    (hl : ∀ xs ∈ left, xs.Perm dl) (hr : ∀ ys ∈ right, ys.Perm dr) :
    ∀ l ∈ joined left right, l.Perm (dl ++ dr) := by
  intro l hmem
  obtain ⟨xs, hxs, ys, hys, hi⟩ := (mem_joined left right l).mp hmem
  exact (mem_interleavings_perm xs ys l hi).trans ((hl xs hxs).append (hr ys hys))

theorem append_mem_joined (left right : List (List Bytes)) (dl dr : List Bytes)
    (hl : dl ∈ left) (hr : dr ∈ right) : dl ++ dr ∈ joined left right :=
  (mem_joined left right _).mpr ⟨dl, hl, dr, hr, append_mem_interleavings dl dr⟩

theorem deleted_base (ld : Loader) (root : Bytes) (h i : Nat) (b : Batch)
    (hb : h = 0 ∨ root.length = 0) :
    deleted ld root h i b = [] ∧ deleteErr ld root h i b = none := by
  unfold deleted deleteErr deleteSubTree
  rcases hb with rfl | hr
  · simp [emptyDB]
  · cases h <;> simp [hr, emptyDB]

theorem deleted_of_error (ld : Loader) (root : Bytes) (h i : Nat) (b : Batch) (e : String)
    (hr : root.length ≠ 0) (hl : ld root (h + 1) i b = .error e) :
    deleted ld root (h + 1) i b = [] ∧ deleteErr ld root (h + 1) i b = some e := by
  unfold deleted deleteErr
  rw [deleteSubTree]
  simp [hr, hl, recordLoad, emptyDB]

theorem deleted_of_shortcut (ld : Loader) (root : Bytes) (h i : Nat) (b : Batch) (c : Children)
    (hr : root.length ≠ 0) (hl : ld root (h + 1) i b = .ok c) (hs : c.isShortcut = true) :
    deleted ld root (h + 1) i b = revertedNode root c.iBatch ∧
      deleteErr ld root (h + 1) i b = none := by
  unfold deleted deleteErr
  rw [deleteSubTree]
  simp only [hr, if_false, hl, hs, Bool.not_true, Bool.false_eq_true]
  unfold maybeDeleteRevertedNode revertedNode
  by_cases hi : c.iBatch = 0 <;> simp [hi, recordLoad, emptyDB]

theorem deleted_of_split (ld : Loader) (root : Bytes) (h i : Nat) (b : Batch) (c : Children)
    (hr : root.length ≠ 0) (hl : ld root (h + 1) i b = .ok c) (hs : c.isShortcut = false) :
    deleted ld root (h + 1) i b =
        deleted ld c.lnode h (2 * c.iBatch + 1) c.batch ++
          deleted ld c.rnode h (2 * c.iBatch + 2) c.batch ++
          (if firstError (deleteErr ld c.lnode h (2 * c.iBatch + 1) c.batch)
              (deleteErr ld c.rnode h (2 * c.iBatch + 2) c.batch) = none
            then revertedNode root c.iBatch else []) ∧
      deleteErr ld root (h + 1) i b =
        firstError (deleteErr ld c.lnode h (2 * c.iBatch + 1) c.batch)
          (deleteErr ld c.rnode h (2 * c.iBatch + 2) c.batch) := by
  have hx := deleteSubTree_descends ld root h i b emptyDB c hr hl hs
  refine ⟨?_, hx.1⟩
  unfold deleted at hx ⊢
  rw [hx.2]
  unfold deleteErr revertedNode
  by_cases he : firstError (deleteSubTree ld c.lnode h (2 * c.iBatch + 1) c.batch emptyDB).2
      (deleteSubTree ld c.rnode h (2 * c.iBatch + 2) c.batch emptyDB).2 = none <;>
    by_cases hi : c.iBatch = 0 <;> simp [he, hi, emptyDB]

/-- Every schedule of `deleteSubTree` appends a permutation of what the
sequential run appends, the sequential run is one of the schedules, and the
error sent is the same. -/
theorem deleteSubTreeRuns_spec (ld : Loader) (h : Nat) :
    ∀ (root : Bytes) (i : Nat) (b : Batch),
      (deleteSubTreeRuns ld root h i b).2 = deleteErr ld root h i b ∧
        deleted ld root h i b ∈ (deleteSubTreeRuns ld root h i b).1 ∧
        ∀ l ∈ (deleteSubTreeRuns ld root h i b).1, l.Perm (deleted ld root h i b) := by
  induction h with
  | zero =>
    intro root i b
    obtain ⟨e1, e2⟩ := deleted_base ld root 0 i b (Or.inl rfl)
    rw [e1, e2]
    simp [deleteSubTreeRuns]
  | succ h ih =>
    intro root i b
    by_cases hr : root.length = 0
    · obtain ⟨e1, e2⟩ := deleted_base ld root (h + 1) i b (Or.inr hr)
      rw [e1, e2]
      simp [deleteSubTreeRuns, hr]
    · cases hl : ld root (h + 1) i b with
      | error e =>
        obtain ⟨e1, e2⟩ := deleted_of_error ld root h i b e hr hl
        rw [e1, e2, deleteSubTreeRuns]
        simp [hr, hl]
      | ok c =>
        cases hs : c.isShortcut with
        | true =>
          obtain ⟨e1, e2⟩ := deleted_of_shortcut ld root h i b c hr hl hs
          rw [e1, e2, deleteSubTreeRuns]
          simp [hr, hl, hs]
        | false =>
          obtain ⟨e1, e2⟩ := deleted_of_split ld root h i b c hr hl hs
          obtain ⟨a1, m1, p1⟩ := ih c.lnode (2 * c.iBatch + 1) c.batch
          obtain ⟨a2, m2, p2⟩ := ih c.rnode (2 * c.iBatch + 2) c.batch
          rw [e1, e2, deleteSubTreeRuns]
          simp only [hr, if_false, hl, hs, Bool.not_false, if_true, a1, a2]
          have hj := joined_perm _ _ _ _ p1 p2
          have hm := append_mem_joined _ _ _ _ m1 m2
          cases h1 : deleteErr ld c.lnode h (2 * c.iBatch + 1) c.batch <;>
            cases h2 : deleteErr ld c.rnode h (2 * c.iBatch + 2) c.batch
          · simp only [firstError, if_true, List.mem_map]
            refine ⟨trivial, ⟨_, hm, rfl⟩, ?_⟩
            rintro l ⟨l', hl', rfl⟩
            exact (hj l' hl').append_right _
          · simp only [firstError, reduceCtorEq, if_false, List.append_nil]
            exact ⟨trivial, hm, hj⟩
          · simp only [firstError, reduceCtorEq, if_false, List.append_nil]
            exact ⟨trivial, hm, hj⟩
          · simp only [firstError, reduceCtorEq, if_false, List.append_nil]
            exact ⟨trivial, hm, hj⟩

theorem diffed_base (ld : Loader) (o m : Bytes) (h i : Nat) (b b2 : Batch)
    (hb : (o = m ∨ m.length = 0) ∨ h = 0) :
    diffed ld o m h i b b2 = [] ∧ diffErr ld o m h i b b2 = none := by
  unfold diffed diffErr
  rw [maybeDeleteSubTree.eq_def]
  by_cases hg : o = m ∨ m.length = 0
  · rw [if_pos hg]
    simp [emptyDB]
  · rw [if_neg hg]
    rcases hb with hb | rfl
    · exact absurd hb hg
    · simp [emptyDB]

theorem diffed_of_error (ld : Loader) (o m : Bytes) (h i : Nat) (b b2 : Batch) (e : String)
    (hg : ¬(o = m ∨ m.length = 0))
    (hl : ld o (h + 1) i b = .error e ∨
      ∃ c, ld o (h + 1) i b = .ok c ∧ ld m (h + 1) c.iBatch b2 = .error e) :
    diffed ld o m (h + 1) i b b2 = [] ∧ diffErr ld o m (h + 1) i b b2 = some e := by
  unfold diffed diffErr
  rw [maybeDeleteSubTree, if_neg hg]
  rcases hl with hl | ⟨c, hl, hl2⟩
  · simp [hl, recordLoad, emptyDB]
  · simp [hl, hl2, recordLoad, emptyDB]

theorem diffed_of_single (ld : Loader) (o m : Bytes) (h i : Nat) (b b2 : Batch)
    (c c2 : Children) (hg : ¬(o = m ∨ m.length = 0)) (hl : ld o (h + 1) i b = .ok c)
    (hl2 : ld m (h + 1) c.iBatch b2 = .ok c2) (hs2 : c2.isShortcut = true) :
    diffed ld o m (h + 1) i b b2 =
        (if c.isShortcut = true ∧ c.lnode = c2.lnode ∧ c.rnode = c2.rnode then []
          else revertedNode m c.iBatch) ∧
      diffErr ld o m (h + 1) i b b2 = none := by
  unfold diffed diffErr
  rw [maybeDeleteSubTree, if_neg hg]
  have hown : ∀ db : CacheDB, (maybeDeleteRevertedNode db m c.iBatch).nodesToRevert =
      db.nodesToRevert ++ revertedNode m c.iBatch := by
    intro db
    unfold maybeDeleteRevertedNode revertedNode
    split <;> simp
  cases hs : c.isShortcut
  · simp [hl, hl2, hs, hs2, hown, recordLoad, emptyDB]
  · simp only [hl, hl2, hs, hs2, ne_eq, not_true_eq_false, if_false, if_true, true_and]
    by_cases hd : c.lnode = c2.lnode ∧ c.rnode = c2.rnode
    · simp [hd, recordLoad, emptyDB]
    · have hd' : ¬c.lnode = c2.lnode ∨ ¬c.rnode = c2.rnode := by
        by_contra hc
        push_neg at hc
        exact hd hc
      simp [hd, hd', hown, recordLoad, emptyDB]

theorem diffed_of_defer (ld : Loader) (o m : Bytes) (h i : Nat) (b b2 : Batch)
    (c c2 : Children) (hg : ¬(o = m ∨ m.length = 0)) (hl : ld o (h + 1) i b = .ok c)
    (hl2 : ld m (h + 1) c.iBatch b2 = .ok c2) (hs : c.isShortcut = true)
    (hs2 : c2.isShortcut = false) :
    diffed ld o m (h + 1) i b b2 = deleted ld m (h + 1) c.iBatch c2.batch ∧
      diffErr ld o m (h + 1) i b b2 = deleteErr ld m (h + 1) c.iBatch c2.batch :=
  maybeDeleteSubTree_defers ld o m (h + 1) i b b2 emptyDB c c2 (fun e => hg (Or.inl e))
    (fun e => hg (Or.inr e)) (by omega) hl hl2 hs hs2

theorem diffed_of_splits (ld : Loader) (o m : Bytes) (h i : Nat) (b b2 : Batch)
    (c c2 : Children) (hg : ¬(o = m ∨ m.length = 0)) (hl : ld o (h + 1) i b = .ok c)
    (hl2 : ld m (h + 1) c.iBatch b2 = .ok c2) (hs : c.isShortcut = false)
    (hs2 : c2.isShortcut = false) :
    diffed ld o m (h + 1) i b b2 =
        revertedNode m c.iBatch ++
          (diffed ld c.lnode c2.lnode h (2 * c.iBatch + 1) c.batch c2.batch ++
            diffed ld c.rnode c2.rnode h (2 * c.iBatch + 2) c.batch c2.batch) ∧
      diffErr ld o m (h + 1) i b b2 =
        firstError (diffErr ld c.lnode c2.lnode h (2 * c.iBatch + 1) c.batch c2.batch)
          (diffErr ld c.rnode c2.rnode h (2 * c.iBatch + 2) c.batch c2.batch) := by
  have hne : o ≠ m := fun e => hg (Or.inl e)
  have hlen : m.length ≠ 0 := fun e => hg (Or.inr e)
  have hd := (maybeDeleteSubTree_descends ld o m (h + 1) i b b2 emptyDB c c2 hne hlen
    (by omega) hl hl2 hs hs2).2
  have he := maybeDeleteSubTree_descends_err ld o m h i b b2 emptyDB c c2 hne hlen
    hl hl2 hs hs2
  simp only [Nat.add_sub_cancel] at hd
  constructor
  · unfold diffed
    rw [hd]
    unfold revertedNode
    simp [emptyDB]
  · unfold diffErr
    rw [he]
    unfold firstError
    split <;> simp_all

/-- Every schedule of `maybeDeleteSubTree` appends a permutation of what the
sequential run appends, the sequential run is one of the schedules, and the
error sent is the same. -/
theorem maybeDeleteSubTreeRuns_spec (ld : Loader) (h : Nat) :
    ∀ (o m : Bytes) (i : Nat) (b b2 : Batch),
      (maybeDeleteSubTreeRuns ld o m h i b b2).2 = diffErr ld o m h i b b2 ∧
        diffed ld o m h i b b2 ∈ (maybeDeleteSubTreeRuns ld o m h i b b2).1 ∧
        ∀ l ∈ (maybeDeleteSubTreeRuns ld o m h i b b2).1,
          l.Perm (diffed ld o m h i b b2) := by
  induction h with
  | zero =>
    intro o m i b b2
    obtain ⟨e1, e2⟩ := diffed_base ld o m 0 i b b2 (Or.inr rfl)
    rw [e1, e2, maybeDeleteSubTreeRuns.eq_def]
    split <;> simp
  | succ h ih =>
    intro o m i b b2
    by_cases hg : o = m ∨ m.length = 0
    · obtain ⟨e1, e2⟩ := diffed_base ld o m (h + 1) i b b2 (Or.inl hg)
      rw [e1, e2, maybeDeleteSubTreeRuns, if_pos hg]
      simp
    · rw [maybeDeleteSubTreeRuns, if_neg hg]
      cases hl : ld o (h + 1) i b with
      | error e =>
        obtain ⟨e1, e2⟩ := diffed_of_error ld o m h i b b2 e hg (Or.inl hl)
        rw [e1, e2]
        simp
      | ok c =>
        simp only []
        cases hl2 : ld m (h + 1) c.iBatch b2 with
        | error e =>
          obtain ⟨e1, e2⟩ := diffed_of_error ld o m h i b b2 e hg (Or.inr ⟨c, hl, hl2⟩)
          rw [e1, e2]
          simp
        | ok c2 =>
          simp only []
          cases hs2 : c2.isShortcut with
          | true =>
            obtain ⟨e1, e2⟩ := diffed_of_single ld o m h i b b2 c c2 hg hl hl2 hs2
            rw [e1, e2]
            cases hs : c.isShortcut
            · simp [hs2]
            · simp only [hs2, ne_eq, not_true_eq_false, if_false, if_true, true_and]
              by_cases hd : c.lnode = c2.lnode ∧ c.rnode = c2.rnode
              · simp [hd]
              · have hd' : ¬c.lnode = c2.lnode ∨ ¬c.rnode = c2.rnode := by
                  by_contra hc
                  push_neg at hc
                  exact hd hc
                simp [hd, hd']
          | false =>
            cases hs : c.isShortcut with
            | true =>
              obtain ⟨e1, e2⟩ := diffed_of_defer ld o m h i b b2 c c2 hg hl hl2 hs hs2
              obtain ⟨a, mm, p⟩ := deleteSubTreeRuns_spec ld (h + 1) m c.iBatch c2.batch
              rw [e1, e2]
              simp only [hs2, ne_eq, Bool.true_eq_false, not_false_eq_true, if_true]
              cases hx : (deleteSubTreeRuns ld m (h + 1) c.iBatch c2.batch).2 with
              | none => exact ⟨by rw [← a, hx], mm, p⟩
              | some e => exact ⟨by rw [← a, hx], mm, p⟩
            | false =>
              obtain ⟨e1, e2⟩ := diffed_of_splits ld o m h i b b2 c c2 hg hl hl2 hs hs2
              obtain ⟨a1, m1, p1⟩ := ih c.lnode c2.lnode (2 * c.iBatch + 1) c.batch c2.batch
              obtain ⟨a2, m2, p2⟩ := ih c.rnode c2.rnode (2 * c.iBatch + 2) c.batch c2.batch
              have hj := joined_perm _ _ _ _ p1 p2
              have hm := append_mem_joined _ _ _ _ m1 m2
              rw [e1, e2]
              simp only [hs2, ne_eq, not_true_eq_false, if_false, Bool.false_eq_true, a1, a2]
              have hruns : revertedNode m c.iBatch ++
                    (diffed ld c.lnode c2.lnode h (2 * c.iBatch + 1) c.batch c2.batch ++
                      diffed ld c.rnode c2.rnode h (2 * c.iBatch + 2) c.batch c2.batch) ∈
                    (joined
                      (maybeDeleteSubTreeRuns ld c.lnode c2.lnode h (2 * c.iBatch + 1) c.batch
                        c2.batch).1
                      (maybeDeleteSubTreeRuns ld c.rnode c2.rnode h (2 * c.iBatch + 2) c.batch
                        c2.batch).1).map (fun l => revertedNode m c.iBatch ++ l) ∧
                  ∀ l ∈ (joined
                      (maybeDeleteSubTreeRuns ld c.lnode c2.lnode h (2 * c.iBatch + 1) c.batch
                        c2.batch).1
                      (maybeDeleteSubTreeRuns ld c.rnode c2.rnode h (2 * c.iBatch + 2) c.batch
                        c2.batch).1).map (fun l => revertedNode m c.iBatch ++ l),
                    l.Perm (revertedNode m c.iBatch ++
                      (diffed ld c.lnode c2.lnode h (2 * c.iBatch + 1) c.batch c2.batch ++
                        diffed ld c.rnode c2.rnode h (2 * c.iBatch + 2) c.batch c2.batch)) := by
                constructor
                · exact List.mem_map.mpr ⟨_, hm, rfl⟩
                · intro l hl'
                  obtain ⟨l', hl'', rfl⟩ := List.mem_map.mp hl'
                  exact (hj l' hl'').append_left _
              cases h1 : diffErr ld c.lnode c2.lnode h (2 * c.iBatch + 1) c.batch c2.batch <;>
                cases h2 : diffErr ld c.rnode c2.rnode h (2 * c.iBatch + 2) c.batch c2.batch <;>
                exact ⟨by simp [firstError], hruns.1, hruns.2⟩

/-- C14 (concurrent and sequential execution agree): for every pair of digests
and every loader, every sequence of digests that `maybeDeleteSubTree` can
append when the child tasks run concurrently (any interleaving of their
mutex-guarded appends) is a permutation of the sequence the strictly
sequential execution appends, so the two revert sets are equal as sets; the
sequential execution is one of the schedules, and the error sent is the same.
The same holds for `deleteSubTree`. -/
theorem concurrent_runs_agree (ld : Loader) (original maybeDelete root : Bytes)
    (height iBatch : Nat) (batch batch2 : Batch) :
    ((maybeDeleteSubTreeRuns ld original maybeDelete height iBatch batch batch2).2 =
        (maybeDeleteSubTree ld original maybeDelete height iBatch batch batch2 emptyDB).2 ∧
      (maybeDeleteSubTree ld original maybeDelete height iBatch batch batch2
        emptyDB).1.nodesToRevert ∈
        (maybeDeleteSubTreeRuns ld original maybeDelete height iBatch batch batch2).1 ∧
      ∀ l ∈ (maybeDeleteSubTreeRuns ld original maybeDelete height iBatch batch batch2).1,
        l.Perm (maybeDeleteSubTree ld original maybeDelete height iBatch batch batch2
            emptyDB).1.nodesToRevert ∧
          ∀ d, d ∈ l ↔ d ∈ (maybeDeleteSubTree ld original maybeDelete height iBatch batch
            batch2 emptyDB).1.nodesToRevert) ∧
    ((deleteSubTreeRuns ld root height iBatch batch).2 =
        (deleteSubTree ld root height iBatch batch emptyDB).2 ∧
      (deleteSubTree ld root height iBatch batch emptyDB).1.nodesToRevert ∈
        (deleteSubTreeRuns ld root height iBatch batch).1 ∧
      ∀ l ∈ (deleteSubTreeRuns ld root height iBatch batch).1,
        l.Perm (deleteSubTree ld root height iBatch batch emptyDB).1.nodesToRevert ∧
          ∀ d, d ∈ l ↔ d ∈ (deleteSubTree ld root height iBatch batch
            emptyDB).1.nodesToRevert) := by
  obtain ⟨a, m, p⟩ := maybeDeleteSubTreeRuns_spec ld height original maybeDelete iBatch batch
    batch2
  obtain ⟨a', m', p'⟩ := deleteSubTreeRuns_spec ld height root iBatch batch
  exact ⟨⟨a, m, fun l hl => ⟨p l hl, fun d => (p l hl).mem_iff⟩⟩,
    ⟨a', m', fun l hl => ⟨p' l hl, fun d => (p' l hl).mem_iff⟩⟩⟩

theorem concurrent_runs_agree_witness :
    [[11], [13], [12]] ∈ (maybeDeleteSubTreeRuns exampleLoader [1] [11] 5 0 [] []).1 ∧
      (maybeDeleteSubTree exampleLoader [1] [11] 5 0 [] [] emptyDB).1.nodesToRevert =
        [[11], [12], [13]] ∧
      ∀ d, d ∈ [[11], [13], [12]] ↔
        d ∈ (maybeDeleteSubTree exampleLoader [1] [11] 5 0 [] [] emptyDB).1.nodesToRevert :=
  ⟨by decide, by decide,
    ((concurrent_runs_agree exampleLoader [1] [11] [1] 5 0 [] []).1.2.2 [[11], [13], [12]]
      (by decide)).2⟩

/-! ## Only batch roots are scheduled -/

theorem atIndexZero_append (a b : List (Bytes × Nat)) :
    atIndexZero (a ++ b) = atIndexZero a ++ atIndexZero b := by
  simp [atIndexZero]

theorem atIndexZero_cons (n : Bytes) (k : Nat) (l : List (Bytes × Nat)) :
    atIndexZero ((n, k) :: l) = revertedNode n k ++ atIndexZero l := by
  unfold atIndexZero revertedNode
  by_cases hk : k = 0 <;> simp [hk, List.filter_cons]

theorem atIndexZero_single (n : Bytes) (k : Nat) :
    atIndexZero [(n, k)] = revertedNode n k := by
  rw [atIndexZero_cons]
  simp [atIndexZero]

theorem mem_atIndexZero (l : List (Bytes × Nat)) (d : Bytes) :
    d ∈ atIndexZero l ↔ (d, 0) ∈ l := by
  unfold atIndexZero
  simp only [List.mem_map, List.mem_filter, decide_eq_true_eq]
  constructor
  · rintro ⟨⟨n, k⟩, ⟨hn, hk⟩, rfl⟩
    simp only at hk
    subst hk
    exact hn
  · intro h
    exact ⟨(d, 0), ⟨h, rfl⟩, rfl⟩

/-- What `deleteSubTree` appends is, in order, part of the nodes of its own
levels whose batch index is 0. -/
theorem deleted_sublist_levels (ld : Loader) (h : Nat) :
    ∀ (root : Bytes) (i : Nat) (b : Batch),
      (deleted ld root h i b).Sublist (atIndexZero (deleteLevels ld root h i b)) := by
  induction h with
  | zero =>
    intro root i b
    rw [(deleted_base ld root 0 i b (Or.inl rfl)).1]
    exact List.nil_sublist _
  | succ h ih =>
    intro root i b
    by_cases hr : root.length = 0
    · rw [(deleted_base ld root (h + 1) i b (Or.inr hr)).1]
      exact List.nil_sublist _
    · cases hl : ld root (h + 1) i b with
      | error e =>
        rw [(deleted_of_error ld root h i b e hr hl).1]
        exact List.nil_sublist _
      | ok c =>
        cases hs : c.isShortcut with
        | true =>
          rw [(deleted_of_shortcut ld root h i b c hr hl hs).1, deleteLevels]
          simp only [hr, if_false, hl, hs, if_true, List.nil_append]
          rw [atIndexZero_single]
        | false =>
          rw [(deleted_of_split ld root h i b c hr hl hs).1, deleteLevels]
          simp only [hr, if_false, hl, hs, Bool.false_eq_true]
          rw [atIndexZero_append, atIndexZero_append, atIndexZero_single]
          refine List.Sublist.append (List.Sublist.append (ih _ _ _) (ih _ _ _)) ?_
          split
          · exact List.Sublist.refl _
          · exact List.nil_sublist _

/-- What `maybeDeleteSubTree` appends is, in order, part of the nodes of its
own levels whose batch index is 0. -/
theorem diffed_sublist_levels (ld : Loader) (h : Nat) :
    ∀ (o m : Bytes) (i : Nat) (b b2 : Batch),
      (diffed ld o m h i b b2).Sublist (atIndexZero (diffLevels ld o m h i b b2)) := by
  induction h with
  | zero =>
    intro o m i b b2
    rw [(diffed_base ld o m 0 i b b2 (Or.inr rfl)).1]
    exact List.nil_sublist _
  | succ h ih =>
    intro o m i b b2
    by_cases hg : o = m ∨ m.length = 0
    · rw [(diffed_base ld o m (h + 1) i b b2 (Or.inl hg)).1]
      exact List.nil_sublist _
    · cases hl : ld o (h + 1) i b with
      | error e =>
        rw [(diffed_of_error ld o m h i b b2 e hg (Or.inl hl)).1]
        exact List.nil_sublist _
      | ok c =>
        cases hl2 : ld m (h + 1) c.iBatch b2 with
        | error e =>
          rw [(diffed_of_error ld o m h i b b2 e hg (Or.inr ⟨c, hl, hl2⟩)).1]
          exact List.nil_sublist _
        | ok c2 =>
          have hlev : diffLevels ld o m (h + 1) i b b2 =
              if c.isShortcut ≠ c2.isShortcut then
                if c.isShortcut then deleteLevels ld m (h + 1) c.iBatch c2.batch
                else [(m, c.iBatch)]
              else if c.isShortcut then [(m, c.iBatch)]
              else
                (m, c.iBatch) ::
                  (diffLevels ld c.lnode c2.lnode h (2 * c.iBatch + 1) c.batch c2.batch ++
                    diffLevels ld c.rnode c2.rnode h (2 * c.iBatch + 2) c.batch c2.batch) := by
            rw [diffLevels, if_neg hg]
            simp only [hl, hl2]
          rw [hlev]
          cases hs2 : c2.isShortcut with
          | true =>
            rw [(diffed_of_single ld o m h i b b2 c c2 hg hl hl2 hs2).1]
            have hz : atIndexZero (if c.isShortcut ≠ true then
                  if c.isShortcut then deleteLevels ld m (h + 1) c.iBatch c2.batch
                  else [(m, c.iBatch)]
                else if c.isShortcut then [(m, c.iBatch)]
                else
                  (m, c.iBatch) ::
                    (diffLevels ld c.lnode c2.lnode h (2 * c.iBatch + 1) c.batch c2.batch ++
                      diffLevels ld c.rnode c2.rnode h (2 * c.iBatch + 2) c.batch
                        c2.batch)) = revertedNode m c.iBatch := by
              cases hs : c.isShortcut <;> simp [atIndexZero_single]
            rw [hz]
            split
            · exact List.nil_sublist _
            · exact List.Sublist.refl _
          | false =>
            cases hs : c.isShortcut with
            | true =>
              rw [(diffed_of_defer ld o m h i b b2 c c2 hg hl hl2 hs hs2).1]
              simp only [ne_eq, Bool.true_eq_false, not_false_eq_true, if_true]
              exact deleted_sublist_levels ld (h + 1) m c.iBatch c2.batch
            | false =>
              rw [(diffed_of_splits ld o m h i b b2 c c2 hg hl hl2 hs hs2).1]
              simp only [ne_eq, not_true_eq_false, if_false, Bool.false_eq_true]
              rw [atIndexZero_cons, atIndexZero_append]
              exact List.Sublist.append (List.Sublist.refl _)
                (List.Sublist.append (ih _ _ _ _ _) (ih _ _ _ _ _))

/-- For a loader with stable indices the index of a diff level is also the
index returned for `maybeDelete` itself. -/
theorem diffOwnLevels_eq (ld : Loader) (hst : IndexStable ld) (h : Nat) :
    ∀ (o m : Bytes) (i : Nat) (b b2 : Batch),
      diffOwnLevels ld o m h i b b2 = diffLevels ld o m h i b b2 := by
  induction h with
  | zero =>
    intro o m i b b2
    rw [diffOwnLevels.eq_def, diffLevels.eq_def]
  | succ h ih =>
    intro o m i b b2
    rw [diffOwnLevels, diffLevels]
    by_cases hg : o = m ∨ m.length = 0
    · rw [if_pos hg, if_pos hg]
    · rw [if_neg hg, if_neg hg]
      cases hl : ld o (h + 1) i b with
      | error e => rfl
      | ok c =>
        simp only []
        cases hl2 : ld m (h + 1) c.iBatch b2 with
        | error e => rfl
        | ok c2 =>
          simp only [hst o m (h + 1) i b b2 c c2 hl hl2, ih]

theorem exampleLoader_indexStable : IndexStable exampleLoader := by
  intro n m h i b b2 c c2 h1 h2
  simp only [exampleLoader, Except.ok.injEq] at h1 h2
  rw [← h2, ← h1]
  simp only [exampleIndex]
  split <;> simp_all

/-- C17 as stated fails: in the store `skewLoader`, `loadChildren` returns
batch index 5 for node `[13]` whenever it is loaded, and 0 for `[3]`; the diff
of `[3]` against `[13]` loads both, finds two shortcuts with different pairs,
and appends `[13]`, because the index it tests is the one returned for
`original`: the only level of the call has `[13]` at index 5. -/
theorem appended_node_with_other_index :
    (∀ h i b c, skewLoader [13] h i b = .ok c → c.iBatch = 5) ∧
      skewLoader [3] 4 0 [] = .ok ⟨[], 0, [3], [0], true⟩ ∧
      skewLoader [13] 4 0 [] = .ok ⟨[], 5, [13], [0], true⟩ ∧
      (maybeDeleteSubTree skewLoader [3] [13] 4 0 [] [] emptyDB).1.loaded = [[3], [13]] ∧
      diffOwnLevels skewLoader [3] [13] 4 0 [] [] = [([13], 5)] ∧
      [13] ∈ (maybeDeleteSubTree skewLoader [3] [13] 4 0 [] [] emptyDB).1.nodesToRevert := by
  refine ⟨?_, rfl, rfl, by decide, by decide, by decide⟩
  intro h i b c hc
  simp only [skewLoader, if_true, Except.ok.injEq] at hc
  rw [← hc]

/-- C17, amended: every digest that `deleteSubTree` or `maybeDeleteSubTree`
appends is the node scheduled at a level of the call's own recursion whose
batch index is 0, the batch index of a level being the one `loadChildren`
returned there for the node itself in `deleteSubTree` and for `original` in
`maybeDeleteSubTree`: the digests appended are, in order, a part of the nodes
of the levels with index 0, each of them is the node of such a level, and a
call none of whose levels has index 0 appends nothing.  When `loadChildren`
returns for `maybeDelete` the index it returned for `original`, as the source
assumes, the same holds with the index returned for `maybeDelete` itself. -/
theorem only_batch_roots_scheduled (ld : Loader) (original maybeDelete root : Bytes)
    (height iBatch : Nat) (batch batch2 : Batch) (db : CacheDB) :
    ((deleteSubTree ld root height iBatch batch db).1.nodesToRevert =
          db.nodesToRevert ++ deleted ld root height iBatch batch ∧
        (deleted ld root height iBatch batch).Sublist
          (atIndexZero (deleteLevels ld root height iBatch batch)) ∧
        (∀ d ∈ deleted ld root height iBatch batch,
          (d, 0) ∈ deleteLevels ld root height iBatch batch) ∧
        ((∀ n ∈ deleteLevels ld root height iBatch batch, n.2 ≠ 0) →
          (deleteSubTree ld root height iBatch batch db).1.nodesToRevert =
            db.nodesToRevert)) ∧
      ((maybeDeleteSubTree ld original maybeDelete height iBatch batch batch2
            db).1.nodesToRevert =
          db.nodesToRevert ++ diffed ld original maybeDelete height iBatch batch batch2 ∧
        (diffed ld original maybeDelete height iBatch batch batch2).Sublist
          (atIndexZero (diffLevels ld original maybeDelete height iBatch batch batch2)) ∧
        (∀ d ∈ diffed ld original maybeDelete height iBatch batch batch2,
          (d, 0) ∈ diffLevels ld original maybeDelete height iBatch batch batch2) ∧
        ((∀ n ∈ diffLevels ld original maybeDelete height iBatch batch batch2, n.2 ≠ 0) →
          (maybeDeleteSubTree ld original maybeDelete height iBatch batch batch2
            db).1.nodesToRevert = db.nodesToRevert) ∧
        (IndexStable ld →
          (diffed ld original maybeDelete height iBatch batch batch2).Sublist
              (atIndexZero
                (diffOwnLevels ld original maybeDelete height iBatch batch batch2)) ∧
            ∀ d ∈ diffed ld original maybeDelete height iBatch batch batch2,
              (d, 0) ∈ diffOwnLevels ld original maybeDelete height iBatch batch batch2)) := by
  have s1 := deleted_sublist_levels ld height root iBatch batch
  have s2 := diffed_sublist_levels ld height original maybeDelete iBatch batch batch2
  have a1 : (deleteSubTree ld root height iBatch batch db).1.nodesToRevert =
      db.nodesToRevert ++ deleted ld root height iBatch batch :=
    deleteSubTree_appends ld root height iBatch batch db
  have a2 : (maybeDeleteSubTree ld original maybeDelete height iBatch batch batch2
      db).1.nodesToRevert =
      db.nodesToRevert ++ diffed ld original maybeDelete height iBatch batch batch2 :=
    maybeDeleteSubTree_appends ld original maybeDelete height iBatch batch batch2 db
  refine ⟨⟨a1, s1, ?_, ?_⟩, ⟨a2, s2, ?_, ?_, ?_⟩⟩
  · intro d hd
    exact (mem_atIndexZero _ d).mp (s1.subset hd)
  · intro hnz
    have : deleted ld root height iBatch batch = [] := by
      apply List.eq_nil_iff_forall_not_mem.mpr
      intro d hd
      exact hnz (d, 0) ((mem_atIndexZero _ d).mp (s1.subset hd)) rfl
    rw [a1, this, List.append_nil]
  · intro d hd
    exact (mem_atIndexZero _ d).mp (s2.subset hd)
  · intro hnz
    have : diffed ld original maybeDelete height iBatch batch batch2 = [] := by
      apply List.eq_nil_iff_forall_not_mem.mpr
      intro d hd
      exact hnz (d, 0) ((mem_atIndexZero _ d).mp (s2.subset hd)) rfl
    rw [a2, this, List.append_nil]
  · intro hst
    rw [diffOwnLevels_eq ld hst]
    exact ⟨s2, fun d hd => (mem_atIndexZero _ d).mp (s2.subset hd)⟩

theorem only_batch_roots_scheduled_witness :
    diffLevels exampleLoader [1] [11] 5 0 [] [] =
        [([11], 0), ([12], 0), ([14], 1), ([15], 2), ([13], 0)] ∧
      (maybeDeleteSubTree exampleLoader [1] [11] 5 0 [] [] emptyDB).1.nodesToRevert =
        [[11], [12], [13]] ∧
      (∀ n ∈ diffLevels exampleLoader [2] [12] 3 1 [] [], n.2 ≠ 0) ∧
      (maybeDeleteSubTree exampleLoader [2] [12] 3 1 [] [] emptyDB).1.nodesToRevert =
        emptyDB.nodesToRevert ∧
      IndexStable exampleLoader ∧
      (diffed exampleLoader [1] [11] 5 0 [] []).Sublist
        (atIndexZero (diffOwnLevels exampleLoader [1] [11] 5 0 [] [])) :=
  ⟨by decide, by decide, by decide,
    (only_batch_roots_scheduled exampleLoader [2] [12] [2] 3 1 [] [] emptyDB).2.2.2.2.1
      (by decide),
    exampleLoader_indexStable,
    ((only_batch_roots_scheduled exampleLoader [1] [11] [1] 5 0 [] [] emptyDB).2.2.2.2.2
      exampleLoader_indexStable).1⟩

end Ledger

namespace Labels

/-! ## Theorems on label collections -/

theorem rangeFinds_iff (test : Instance → Bool) (c : Collection) :
    rangeFinds test c = true ↔ ∃ m ∈ c, test m = true := by
  induction c with
  | nil => simp [rangeFinds]
  | cons a rest ih =>
    unfold rangeFinds
    by_cases ha : test a = true
    · simp [ha]
    · simp [ha, ih]

/-- C12 (`Collection.HasSubsetOf`): for every collection `c` and instance `x`,
`c.HasSubsetOf(x)` is true exactly when `c` is empty or some member of `c` is a
subset of `x`.  In particular the empty collection matches every `x`; when
the nil instance is a subset of `x`, every collection containing it matches
`x`; and when `a` is not a subset of `b` (they give different values to the
same key), `{a}` does not match `b`. -/
theorem hasSubsetOf_spec (SubsetOf : Instance → Instance → Bool) (c : Collection)
    (x a b : Instance) (hnil : SubsetOf [] x = true) (hab : SubsetOf a b = false) :
    (HasSubsetOf SubsetOf c x = true ↔ (c.length = 0 ∨ ∃ m ∈ c, SubsetOf m x = true)) ∧
      HasSubsetOf SubsetOf [] x = true ∧
      (([] : Instance) ∈ c → HasSubsetOf SubsetOf c x = true) ∧
      HasSubsetOf SubsetOf [a] b = false := by
  have main : ∀ (c : Collection) (x : Instance),
      HasSubsetOf SubsetOf c x = true ↔ (c.length = 0 ∨ ∃ m ∈ c, SubsetOf m x = true) := by
    intro c x
    unfold HasSubsetOf
    by_cases hc : c.length = 0
    · simp [hc]
    · simp only [hc, if_false, false_or]
      exact rangeFinds_iff _ c
  refine ⟨main c x, (main [] x).mpr (Or.inl rfl), ?_, ?_⟩
  · intro hmem
    exact (main c x).mpr (Or.inr ⟨[], hmem, hnil⟩)
  · cases hv : HasSubsetOf SubsetOf [a] b with
    | false => rfl
    | true =>
      rcases (main [a] b).mp hv with h0 | ⟨m, hm, hs⟩
      · simp at h0
      · simp only [List.mem_singleton] at hm
        subst hm
        rw [hab] at hs
        exact absurd hs (by decide)

theorem hasSubsetOf_spec_witness :
    entriesSubsetOf [] [("app", "a")] = true ∧
      entriesSubsetOf [("app", "a")] [("app", "b")] = false ∧
      (HasSubsetOf entriesSubsetOf [[("app", "a"), ("prod", "env")], [("app", "b")]]
          [("app", "a")] = true ↔
        (([[("app", "a"), ("prod", "env")], [("app", "b")]] : Collection).length = 0 ∨
          ∃ m ∈ ([[("app", "a"), ("prod", "env")], [("app", "b")]] : Collection),
            entriesSubsetOf m [("app", "a")] = true)) ∧
      HasSubsetOf entriesSubsetOf [] [("app", "a")] = true ∧
      (([] : Instance) ∈ ([[("app", "a"), ("prod", "env")], [("app", "b")]] : Collection) →
        HasSubsetOf entriesSubsetOf [[("app", "a"), ("prod", "env")], [("app", "b")]]
          [("app", "a")] = true) ∧
      HasSubsetOf entriesSubsetOf [[("app", "a")]] [("app", "b")] = false :=
  ⟨by decide, by decide,
    hasSubsetOf_spec entriesSubsetOf [[("app", "a"), ("prod", "env")], [("app", "b")]]
      [("app", "a")] [("app", "a")] [("app", "b")] (by decide) (by decide)⟩

/-- C13 (`Collection.IsSupersetOf`): for a non-empty collection `c`,
`c.IsSupersetOf(x)` is true exactly when `x` is a subset of some member of
`c`; for the empty collection it is true exactly when `x` has no labels. -/
theorem isSupersetOf_spec (SubsetOf : Instance → Instance → Bool) (c : Collection)
    (x : Instance) :
    (c.length ≠ 0 →
        (IsSupersetOf SubsetOf c x = true ↔ ∃ m ∈ c, SubsetOf x m = true)) ∧
      (c.length = 0 → (IsSupersetOf SubsetOf c x = true ↔ x.length = 0)) := by
  constructor
  · intro hc
    unfold IsSupersetOf
    simp only [hc, if_false]
    exact rangeFinds_iff _ c
  · intro hc
    unfold IsSupersetOf
    simp [hc]

theorem isSupersetOf_spec_witness :
    (([[("app", "a"), ("prod", "env")], [("app", "b")]] : Collection).length ≠ 0 ∧
        (IsSupersetOf entriesSubsetOf [[("app", "a"), ("prod", "env")], [("app", "b")]]
            [("app", "a")] = true ↔
          ∃ m ∈ ([[("app", "a"), ("prod", "env")], [("app", "b")]] : Collection),
            entriesSubsetOf [("app", "a")] m = true) ∧
        IsSupersetOf entriesSubsetOf [[("app", "a"), ("prod", "env")], [("app", "b")]]
          [("app", "a")] = true) ∧
      (([] : Collection).length = 0 ∧
        (IsSupersetOf entriesSubsetOf [] [("app", "a")] = true ↔
          ([("app", "a")] : Instance).length = 0) ∧
        IsSupersetOf entriesSubsetOf [] [("app", "a")] = false) :=
  ⟨⟨by decide,
      (isSupersetOf_spec entriesSubsetOf [[("app", "a"), ("prod", "env")], [("app", "b")]]
        [("app", "a")]).1 (by decide), by decide⟩,
    ⟨rfl, (isSupersetOf_spec entriesSubsetOf [] [("app", "a")]).2 rfl, by decide⟩⟩

end Labels
